import Mathlib

/-!
Shallow embedding of the linker-graph construction stage
(`internal/graph/graph.go`): the data model, `CloneLinkerGraph`, and the
post-construction graph mutators `AddPartToFile` and
`GenerateSymbolImportAndUse`, together with proofs of the specified
properties.

Go maps are modelled as association lists with replace-on-insert update
(`aset`), Go nil-able slices and maps whose nil-ness is observable are
modelled with `Option`, and Go slice indexing is modelled with `List.set`
and `List.getD` under explicit in-bounds hypotheses.  The parallel clone
phase writes each file slot independently and shares only the
mutex-guarded collector of dynamic-import entry-point candidates, so the
construction is parameterised by the realized order of that collector
(`CloneLinkerGraphWith`); any interleaving of the per-file appends is a
permutation of the canonical order, and scheduling-independence is proved
as invariance of the result under permutations of that list.
-/

namespace Graph

/-- Association-list lookup, modelling a read from a Go map. -/
def alookup {α β : Type} [DecidableEq α] : List (α × β) → α → Option β
  | [], _ => none
  | (k, v) :: rest, key => if k = key then some v else alookup rest key

/-- Association-list update, modelling a write to a Go map: replaces the
binding of the key if present, otherwise appends it. -/
def aset {α β : Type} [DecidableEq α] : List (α × β) → α → β → List (α × β)
  | [], key, val => [(key, val)]
  | (k, v) :: rest, key, val =>
    if k = key then (key, val) :: rest else (k, v) :: aset rest key val

/-- Insert every binding of `entries` into `m`, in order. -/
def asetAll {α β : Type} [DecidableEq α] (m : List (α × β)) (entries : List (α × β)) :
    List (α × β) :=
  entries.foldl (fun acc e => aset acc e.1 e.2) m

/-- A symbol reference: file identity plus in-file index (js_ast.Ref). -/
structure Ref where
  SourceIndex : Nat
  InnerIndex : Nat
deriving DecidableEq, Repr

/-- Estimated use count of a symbol by a part (js_ast.SymbolUse). -/
structure SymbolUse where
  CountEstimate : Nat
deriving DecidableEq, Repr

/-- A dependency edge from one part to a part of some file (js_ast.Dependency). -/
structure Dependency where
  SourceIndex : Nat
  PartIndex : Nat
deriving DecidableEq, Repr

/-- A symbol declared by a part, with its top-level flag (js_ast.DeclaredSymbol). -/
structure DeclaredSymbol where
  Ref : Ref
  IsTopLevel : Bool
deriving DecidableEq, Repr

/-- A declaration part: the unit of tree-shaking granularity (js_ast.Part,
restricted to the fields this stage reads or writes).  `SymbolUses` is a Go
map that can be nil, hence the `Option`. -/
structure Part where
  DeclaredSymbols : List DeclaredSymbol
  SymbolUses : Option (List (Ref × SymbolUse))
  Dependencies : List Dependency
deriving DecidableEq, Repr

/-- Modelled from the spec: the kind of an import record (ast.ImportKind is
defined outside src/); only dynamic-ness is observed by this stage. -/
inductive ImportKind
  | Stmt
  | Require
  | Dynamic
deriving DecidableEq, Repr

/-- One import reference from a file (ast.ImportRecord).  The optional
resolved target (ast.Index32, a validity flag plus index) is an `Option Nat`;
the import-assertion metadata is an opaque nil-able list. -/
structure ImportRecord where
  Kind : ImportKind
  SourceIndex : Option Nat
  Assertions : Option (List (String × String))
deriving DecidableEq, Repr

/-- A named binding (js_ast.Symbol): kind and name are opaque payloads here;
the link is a union-find style reference. -/
structure Symbol where
  Kind : Nat
  OriginalName : String
  Link : Ref
deriving DecidableEq, Repr

/-- Modelled from the spec: a named-import map entry (js_ast.NamedImport is
defined outside src/); opaque payload. -/
structure NamedImport where
  Payload : Nat
deriving DecidableEq, Repr

/-- Modelled from the spec: a named-export map entry (js_ast.NamedExport is
defined outside src/): the exported ref and the position of the alias. -/
structure NamedExport where
  Ref : Ref
  AliasLoc : Nat
deriving DecidableEq, Repr

/-- Modelled from the spec: the module-level scope (js_ast.Scope is defined
outside src/), restricted to the generated-symbols list this stage copies. -/
structure Scope where
  Generated : List Ref
deriving DecidableEq, Repr

/-- Modelled from the spec: an opaque TypeScript enum value payload. -/
structure TSEnumValue where
  Payload : Nat
deriving DecidableEq, Repr

/-- Modelled from the spec: an opaque inlined-constant value payload. -/
structure ConstValue where
  Payload : Nat
deriving DecidableEq, Repr

/-- A resolved-export table entry (graph.ExportData, restricted to the
fields written here). -/
structure ExportData where
  Ref : Ref
  SourceIndex : Nat
  NameLoc : Nat
deriving DecidableEq, Repr

/-- An import-binding table entry (graph.ImportData, restricted to the
fields written here). -/
structure ImportData where
  SourceIndex : Nat
  Ref : Ref
deriving DecidableEq, Repr

/-- The JS AST fields this stage reads or writes (js_ast.AST).  `Symbols`
and the two cross-file tables are nil-able slices/maps (`Option`). -/
structure JSAST where
  Symbols : Option (List Symbol)
  Parts : List Part
  ImportRecords : List ImportRecord
  NamedImports : List (Ref × NamedImport)
  NamedExports : List (String × NamedExport)
  ModuleScope : Scope
  TopLevelSymbolToPartsFromParser : List (Ref × List Nat)
  TSEnums : Option (List (Ref × List (String × TSEnumValue)))
  ConstValues : Option (List (Ref × ConstValue))
  ExportsRef : Ref
  ModuleRef : Ref
  UsesExportsRef : Bool
  UsesModuleRef : Bool
deriving DecidableEq, Repr

/-- Per-file linking metadata (graph.JSReprMeta, restricted to the fields
this stage reads or writes).  The declaring-parts overlay is a nil-able map. -/
structure JSReprMeta where
  ResolvedExports : List (String × ExportData)
  IsProbablyTypeScriptType : List (Ref × Bool)
  ImportsToBind : List (Ref × ImportData)
  TopLevelSymbolToPartsOverlay : Option (List (Ref × List Nat))
deriving DecidableEq, Repr

/-- The JS-family file representation (graph.JSRepr). -/
structure JSRepr where
  AST : JSAST
  Meta : JSReprMeta
deriving DecidableEq, Repr

/-- The CSS AST fields this stage reads or writes (css_ast.AST). -/
structure CSSAST where
  ImportRecords : List ImportRecord
deriving DecidableEq, Repr

/-- The CSS-family file representation (graph.CSSRepr). -/
structure CSSRepr where
  AST : CSSAST
deriving DecidableEq, Repr

/-- A file representation (the graph.InputFileRepr interface): JS-family,
CSS-family, or absent (the nil interface of a zero-valued InputFile). -/
inductive FileRepr
  | js (repr : JSRepr)
  | css (repr : CSSRepr)
  | empty
deriving DecidableEq, Repr

/-- One parsed input file (graph.InputFile, restricted to its representation). -/
structure InputFile where
  Repr : FileRepr
deriving DecidableEq, Repr

/-- The entry-point kind of a linker file. -/
inductive EntryPointKind
  | none
  | userSpecified
  | dynamicImport
deriving DecidableEq, Repr

/-- Modelled from the spec: a reachability bitset of `BitCount` bits, all
clear (helpers.BitSet is defined outside src/; only its size is observable
at this stage). -/
structure BitSet where
  BitCount : Nat
deriving DecidableEq, Repr

/-- The per-invocation mutable wrapper around one input file (graph.LinkerFile). -/
structure LinkerFile where
  EntryBits : BitSet
  InputFile : InputFile
  DistanceFromEntryPoint : Nat
  EntryPointChunkIndex : Nat
  entryPointKind : EntryPointKind
  IsLive : Bool
deriving DecidableEq, Repr

/-- The zero value of a LinkerFile (an unpopulated file slot). -/
def defaultLinkerFile : LinkerFile :=
  { EntryBits := ⟨0⟩
    InputFile := ⟨FileRepr.empty⟩
    DistanceFromEntryPoint := 0
    EntryPointChunkIndex := 0
    entryPointKind := EntryPointKind.none
    IsLive := false }

/-- A graph entry point (graph.EntryPoint). -/
structure EntryPoint where
  OutputPath : String
  SourceIndex : Nat
  OutputPathWasAutoGenerated : Bool
deriving DecidableEq, Repr

/-- The linking graph (graph.LinkerGraph).  The symbol table is the
per-source-index list of symbol slices (js_ast.SymbolMap); a slot is `none`
until a clone task stores that file's symbols into it. -/
structure LinkerGraph where
  Files : List LinkerFile
  entryPoints : List EntryPoint
  SymbolsForSource : List (Option (List Symbol))
  TSEnums : Option (List (Ref × List (String × TSEnumValue)))
  ConstValues : Option (List (Ref × ConstValue))
  ReachableFiles : List Nat
  StableSourceIndices : List Nat
deriving DecidableEq, Repr

/-- The infinite initial distance from an entry point (`^uint32(0)`). -/
def distanceInfinity : Nat := 4294967295

/-- Clone one part: the symbol-use map is copied entry by entry into a fresh
map, so a nil map becomes a present empty one. -/
def clonePart (p : Part) : Part :=
  { p with SymbolUses := some (p.SymbolUses.getD []) }

/-- The stripping applied to one import record during cloning: when code
splitting is active, a dynamic import record with a valid resolved target
has its import assertions removed. -/
def stripRecord (codeSplitting : Bool) (r : ImportRecord) : ImportRecord :=
  if codeSplitting ∧ r.SourceIndex.isSome ∧ r.Kind = ImportKind.Dynamic then
    { r with Assertions := none }
  else r

/-- The dynamic-import entry-point candidates contributed by one record
list: the valid resolved targets of dynamic import records, in record order. -/
def dynamicCandidatesOfRecords (rs : List ImportRecord) : List Nat :=
  rs.filterMap fun r =>
    match r.SourceIndex with
    | some target => if r.Kind = ImportKind.Dynamic then some target else none
    | none => none

/-- Clone a JS-family representation (the body of the per-file clone task
for a JSRepr): symbols are moved out (the AST's own pointer is cleared),
parts and their use maps are copied, import records are copied and possibly
stripped, the named-import map is copied, the resolved-export table is
derived from the named-export map, the module scope's generated list is
copied, and the initial metadata is attached. -/
def cloneJSRepr (codeSplitting : Bool) (sourceIndex : Nat) (repr : JSRepr) : JSRepr :=
  { AST :=
      { repr.AST with
        Symbols := none
        Parts := repr.AST.Parts.map clonePart
        ImportRecords := repr.AST.ImportRecords.map (stripRecord codeSplitting)
        NamedImports := repr.AST.NamedImports
        ModuleScope := ⟨repr.AST.ModuleScope.Generated⟩ }
    Meta :=
      { ResolvedExports :=
          repr.AST.NamedExports.map fun e =>
            (e.1, { Ref := e.2.Ref, SourceIndex := sourceIndex, NameLoc := e.2.AliasLoc })
        IsProbablyTypeScriptType := []
        ImportsToBind := []
        TopLevelSymbolToPartsOverlay := none } }

/-- Clone one input file (the per-file clone task, minus the shared
candidate collector and the symbol-table store). -/
def cloneInputFile (codeSplitting : Bool) (sourceIndex : Nat) (f : InputFile) : InputFile :=
  match f.Repr with
  | FileRepr.js repr => ⟨FileRepr.js (cloneJSRepr codeSplitting sourceIndex repr)⟩
  | FileRepr.css repr => ⟨FileRepr.css ⟨⟨repr.AST.ImportRecords⟩⟩⟩
  | FileRepr.empty => f

/-- The symbols a clone task stores into the file's symbol-table slot:
present exactly for JS-family files (a nil symbol slice is copied to an
empty one). -/
def fileSymbolsOf (f : InputFile) : Option (List Symbol) :=
  match f.Repr with
  | FileRepr.js repr => some (repr.AST.Symbols.getD [])
  | _ => none

/-- The dynamic-import entry-point candidates one clone task appends to the
shared collector: the valid dynamic-import targets of a JS-family file, and
only when code splitting is active. -/
def dynamicCandidatesOf (codeSplitting : Bool) (f : InputFile) : List Nat :=
  match f.Repr with
  | FileRepr.js repr =>
    if codeSplitting then dynamicCandidatesOfRecords repr.AST.ImportRecords else []
  | _ => []

/-- Overwrite the entry-point kind of file slot `i`. -/
def setKind (fs : List LinkerFile) (i : Nat) (k : EntryPointKind) : List LinkerFile :=
  fs.set i { fs.getD i defaultLinkerFile with entryPointKind := k }

/-- Mark every initial entry point's file slot as user-specified, before
cloning begins. -/
def markEntryPoints (fs : List LinkerFile) (eps : List EntryPoint) : List LinkerFile :=
  eps.foldl (fun fs ep => setKind fs ep.SourceIndex EntryPointKind.userSpecified) fs

/-- Build the stable-index array: slot `sourceIndex` receives that file's
position within `reachableFiles`. -/
def buildStable (reachableFiles : List Nat) (n : Nat) : List Nat :=
  reachableFiles.enum.foldl (fun st p => st.set p.2 p.1) (List.replicate n 0)

/-- The per-slot effect of one clone task on the files array. -/
def cloneSlot (codeSplitting : Bool) (inputFiles : List InputFile)
    (fs : List LinkerFile) (sourceIndex : Nat) : List LinkerFile :=
  let f := inputFiles.getD sourceIndex ⟨FileRepr.empty⟩
  fs.set sourceIndex
    { fs.getD sourceIndex defaultLinkerFile with
      InputFile := cloneInputFile codeSplitting sourceIndex f
      DistanceFromEntryPoint := distanceInfinity }

/-- The parallel clone phase's effect on the files array: each reachable
file's slot receives its cloned input file and the infinite initial
distance (the entry-point kind marked before the phase is preserved). -/
def cloneFilesPhase (codeSplitting : Bool) (inputFiles : List InputFile)
    (fs : List LinkerFile) (reachableFiles : List Nat) : List LinkerFile :=
  reachableFiles.foldl (cloneSlot codeSplitting inputFiles) fs

/-- The parallel clone phase's effect on the symbol table: each reachable
JS-family file's slot receives that file's symbols. -/
def buildSymbols (inputFiles : List InputFile) (reachableFiles : List Nat) (n : Nat) :
    List (Option (List Symbol)) :=
  reachableFiles.foldl
    (fun tbl sourceIndex =>
      match fileSymbolsOf (inputFiles.getD sourceIndex ⟨FileRepr.empty⟩) with
      | some syms => tbl.set sourceIndex (some syms)
      | none => tbl)
    (List.replicate n none)

/-- The canonical contents of the shared dynamic-entry-point collector: the
per-file candidate lists concatenated in reachable-file order.  A real run
realizes some interleaving of the per-file appends, which is a permutation
of this list. -/
def dynamicImportCandidates (codeSplitting : Bool) (inputFiles : List InputFile)
    (reachableFiles : List Nat) : List Nat :=
  (reachableFiles.map fun sourceIndex =>
    dynamicCandidatesOf codeSplitting (inputFiles.getD sourceIndex ⟨FileRepr.empty⟩)).flatten

/-- Process the collected dynamic entry points: promote each candidate whose
file is not yet an entry point to kind dynamic-import (de-duplicating), and
collect the promoted candidates' stable indices in processing order. -/
def promoteDynamic (fs : List LinkerFile) (stable : List Nat) (dyn : List Nat) :
    List LinkerFile × List Nat :=
  dyn.foldl
    (fun acc sourceIndex =>
      if (acc.1.getD sourceIndex defaultLinkerFile).entryPointKind = EntryPointKind.none then
        (setKind acc.1 sourceIndex EntryPointKind.dynamicImport,
         acc.2 ++ [stable.getD sourceIndex 0])
      else acc)
    (fs, [])

/-- The entry points appended for the promoted dynamic imports: only the
source index is set (looked up from the sorted stable indices). -/
def promotedEntryPoints (reachableFiles : List Nat) (sortedStables : List Nat) :
    List EntryPoint :=
  sortedStables.map fun s =>
    { OutputPath := "", SourceIndex := reachableFiles.getD s 0,
      OutputPathWasAutoGenerated := false }

/-- The final serial pass: allocate each reachable file's entry bitset now
that the entry-point count is known, and merge the per-file TypeScript-enum
and inlined-constant tables into two graph-wide tables. -/
def finalPass (fs : List LinkerFile) (reachableFiles : List Nat) (bitCount : Nat) :
    List LinkerFile × Option (List (Ref × List (String × TSEnumValue)))
      × Option (List (Ref × ConstValue)) :=
  reachableFiles.foldl
    (fun acc sourceIndex =>
      let file := acc.1.getD sourceIndex defaultLinkerFile
      let fs' := acc.1.set sourceIndex { file with EntryBits := ⟨bitCount⟩ }
      let ts :=
        match file.InputFile.Repr with
        | FileRepr.js repr =>
          match repr.AST.TSEnums with
          | some m => some (asetAll (acc.2.1.getD []) m)
          | none => acc.2.1
        | _ => acc.2.1
      let cv :=
        match file.InputFile.Repr with
        | FileRepr.js repr =>
          match repr.AST.ConstValues with
          | some m => some (asetAll (acc.2.2.getD []) m)
          | none => acc.2.2
        | _ => acc.2.2
      (fs', ts, cv))
    (fs, none, none)

/-- CloneLinkerGraph, parameterised by the realized contents `dyn` of the
shared dynamic-entry-point collector (the one datum whose order depends on
the parallel schedule). -/
def CloneLinkerGraphWith (inputFiles : List InputFile) (reachableFiles : List Nat)
    (originalEntryPoints : List EntryPoint) (codeSplitting : Bool) (dyn : List Nat) :
    LinkerGraph :=
  let n := inputFiles.length
  let files0 := markEntryPoints (List.replicate n defaultLinkerFile) originalEntryPoints
  let stable := buildStable reachableFiles n
  let files1 := cloneFilesPhase codeSplitting inputFiles files0 reachableFiles
  let symbols := buildSymbols inputFiles reachableFiles n
  let pd := promoteDynamic files1 stable dyn
  let sortedStables := List.insertionSort (· ≤ ·) pd.2
  let entryPoints := originalEntryPoints ++ promotedEntryPoints reachableFiles sortedStables
  let fin := finalPass pd.1 reachableFiles entryPoints.length
  { Files := fin.1
    entryPoints := entryPoints
    SymbolsForSource := symbols
    TSEnums := fin.2.1
    ConstValues := fin.2.2
    ReachableFiles := reachableFiles
    StableSourceIndices := stable }

/-- CloneLinkerGraph with the canonical (reachable-file-ordered) contents of
the dynamic-entry-point collector. -/
def CloneLinkerGraph (inputFiles : List InputFile) (reachableFiles : List Nat)
    (originalEntryPoints : List EntryPoint) (codeSplitting : Bool) : LinkerGraph :=
  CloneLinkerGraphWith inputFiles reachableFiles originalEntryPoints codeSplitting
    (dynamicImportCandidates codeSplitting inputFiles reachableFiles)

/-- Modelled from the spec: the declaring-parts lookup for a symbol in a
JS-family file (the helper `JSRepr.TopLevelSymbolToParts` is defined in this
repository outside src/): it transparently consults the overlay, falling
back to the parser-provided table when the symbol has no overlay entry. -/
def TopLevelSymbolToParts (repr : JSRepr) (ref : Ref) : List Nat :=
  match repr.Meta.TopLevelSymbolToPartsOverlay with
  | some overlay =>
    match alookup overlay ref with
    | some parts => parts
    | none => (alookup repr.AST.TopLevelSymbolToPartsFromParser ref).getD []
  | none => (alookup repr.AST.TopLevelSymbolToPartsFromParser ref).getD []

/-- The JS-family representation of file `i` of the graph, when it has one. -/
def jsReprOf (g : LinkerGraph) (i : Nat) : Option JSRepr :=
  match (g.Files.getD i defaultLinkerFile).InputFile.Repr with
  | FileRepr.js repr => some repr
  | _ => none

/-- Replace the JS-family representation of file `i` of the graph. -/
def setJSRepr (g : LinkerGraph) (i : Nat) (repr : JSRepr) : LinkerGraph :=
  { g with
    Files := g.Files.set i
      { g.Files.getD i defaultLinkerFile with InputFile := ⟨FileRepr.js repr⟩ } }

/-- The effect of AddPartToFile's declared-symbols loop on the metadata: for
each top-level declared symbol, seed the overlay entry from the parser table
if absent, then append the new part index. -/
def addPartOverlay (meta : JSReprMeta) (parser : List (Ref × List Nat))
    (decls : List DeclaredSymbol) (partIndex : Nat) : JSReprMeta :=
  decls.foldl
    (fun m ds =>
      if ds.IsTopLevel then
        let partIndices :=
          match alookup (m.TopLevelSymbolToPartsOverlay.getD []) ds.Ref with
          | some indices => indices
          | none => (alookup parser ds.Ref).getD []
        { m with
          TopLevelSymbolToPartsOverlay :=
            some (aset (m.TopLevelSymbolToPartsOverlay.getD []) ds.Ref
              (partIndices ++ [partIndex])) }
      else m)
    meta

/-- AddPartToFile: append the part (with a nil use map repaired to an empty
one) to the file's part list, update the declaring-parts overlay for every
top-level declared symbol, and return the new part's index.  `none` models
the fatal precondition violations (file slot out of range, or a file with
no JS-family representation). -/
def AddPartToFile (g : LinkerGraph) (sourceIndex : Nat) (part : Part) :
    Option (LinkerGraph × Nat) :=
  match g.Files.get? sourceIndex with
  | none => none
  | some _ =>
    match jsReprOf g sourceIndex with
    | none => none
    | some repr =>
      let part := { part with SymbolUses := some (part.SymbolUses.getD []) }
      let partIndex := repr.AST.Parts.length
      let repr' : JSRepr :=
        { AST := { repr.AST with Parts := repr.AST.Parts ++ [part] }
          Meta := addPartOverlay repr.Meta repr.AST.TopLevelSymbolToPartsFromParser
            part.DeclaredSymbols partIndex }
      some (setJSRepr g sourceIndex repr', partIndex)

/-- Iterated AddPartToFile, returning the indices of the added parts. -/
def addPartsToFile (g : LinkerGraph) (sourceIndex : Nat) :
    List Part → Option (LinkerGraph × List Nat)
  | [] => some (g, [])
  | p :: ps =>
    match AddPartToFile g sourceIndex p with
    | none => none
    | some (g', i) =>
      match addPartsToFile g' sourceIndex ps with
      | none => none
      | some (g'', is) => some (g'', i :: is)

/-- GenerateSymbolImportAndUse: a no-op when the use count is zero;
otherwise add the use count to the symbol's estimate on the part (creating
the entry if absent), set the CommonJS exports/module flags when the symbol
is the file's exports/module symbol, record an import binding when the
source imported from differs from the using file, and append one dependency edge
to the using part for every declaring part of the symbol in the import
source file.  `none` models the fatal precondition violations (bad file
slot, non-JS file, bad part index, or a nil use map). -/
def GenerateSymbolImportAndUse (g : LinkerGraph) (sourceIndex : Nat) (partIndex : Nat)
    (ref : Ref) (useCount : Nat) (sourceIndexToImportFrom : Nat) : Option LinkerGraph :=
  if useCount = 0 then some g
  else
    match g.Files.get? sourceIndex with
    | none => none
    | some _ =>
      match jsReprOf g sourceIndex with
      | none => none
      | some repr =>
        match repr.AST.Parts.get? partIndex with
        | none => none
        | some part =>
          match part.SymbolUses with
          | none => none
          | some uses =>
            let use := (alookup uses ref).getD ⟨0⟩
            let part1 :=
              { part with
                SymbolUses := some (aset uses ref ⟨use.CountEstimate + useCount⟩) }
            let ast1 :=
              { repr.AST with
                Parts := repr.AST.Parts.set partIndex part1
                UsesExportsRef :=
                  if ref = repr.AST.ExportsRef then true else repr.AST.UsesExportsRef
                UsesModuleRef :=
                  if ref = repr.AST.ModuleRef then true else repr.AST.UsesModuleRef }
            let meta1 :=
              if sourceIndexToImportFrom ≠ sourceIndex then
                { repr.Meta with
                  ImportsToBind :=
                    aset repr.Meta.ImportsToBind ref
                      { SourceIndex := sourceIndexToImportFrom, Ref := ref } }
              else repr.Meta
            let g1 := setJSRepr g sourceIndex { AST := ast1, Meta := meta1 }
            match jsReprOf g1 sourceIndexToImportFrom with
            | none => none
            | some targetRepr =>
              match jsReprOf g1 sourceIndex with
              | none => none
              | some reprNow =>
                match reprNow.AST.Parts.get? partIndex with
                | none => none
                | some partNow =>
                  let part2 :=
                    { partNow with
                      Dependencies := partNow.Dependencies ++
                        (TopLevelSymbolToParts targetRepr ref).map fun pi =>
                          { SourceIndex := sourceIndexToImportFrom, PartIndex := pi } }
                  some (setJSRepr g1 sourceIndex
                    { reprNow with
                      AST := { reprNow.AST with
                        Parts := reprNow.AST.Parts.set partIndex part2 } })

/-- The zero value of a Part. -/
def defaultPart : Part := { DeclaredSymbols := [], SymbolUses := none, Dependencies := [] }

/-- The entry-point kind stored in file slot `i`. -/
def kindAt (fs : List LinkerFile) (i : Nat) : EntryPointKind :=
  (fs.getD i defaultLinkerFile).entryPointKind

/-- The entry-point kind of file `i` of a graph. -/
def kindOf (g : LinkerGraph) (i : Nat) : EntryPointKind :=
  kindAt g.Files i

/-- The part list of file `i` of a graph (empty when the file has no
JS-family representation). -/
def partsOf (g : LinkerGraph) (i : Nat) : List Part :=
  match jsReprOf g i with
  | some repr => repr.AST.Parts
  | none => []

/-- Part `p` of file `i` of a graph. -/
def partAt (g : LinkerGraph) (i : Nat) (p : Nat) : Part :=
  (partsOf g i).getD p defaultPart

/-- The use-count estimate recorded for `ref` on part `p` of file `i`
(`none` when no entry is present). -/
def countOf (g : LinkerGraph) (i : Nat) (p : Nat) (ref : Ref) : Option Nat :=
  (alookup ((partAt g i p).SymbolUses.getD []) ref).map (·.CountEstimate)

/-- The dependency list of part `p` of file `i`. -/
def depsOf (g : LinkerGraph) (i : Nat) (p : Nat) : List Dependency :=
  (partAt g i p).Dependencies

/-- The import-binding table of file `i` of a graph. -/
def importsToBindOf (g : LinkerGraph) (i : Nat) : List (Ref × ImportData) :=
  match jsReprOf g i with
  | some repr => repr.Meta.ImportsToBind
  | none => []

/-- The declaring-parts overlay entry for `ref` in file `i` of a graph. -/
def overlayEntry (g : LinkerGraph) (i : Nat) (ref : Ref) : Option (List Nat) :=
  match jsReprOf g i with
  | some repr => alookup (repr.Meta.TopLevelSymbolToPartsOverlay.getD []) ref
  | none => none

/-- The parser-provided declaring-parts table of file `i` of a graph. -/
def parserTableOf (g : LinkerGraph) (i : Nat) : List (Ref × List Nat) :=
  match jsReprOf g i with
  | some repr => repr.AST.TopLevelSymbolToPartsFromParser
  | none => []

/-- The parser-recorded declaring parts of `ref` in file `i` of a graph. -/
def parserPartsOf (g : LinkerGraph) (i : Nat) (ref : Ref) : List Nat :=
  (alookup (parserTableOf g i) ref).getD []

/-- The declaring-parts lookup for `ref` in file `i` of a graph. -/
def declaringParts (g : LinkerGraph) (i : Nat) (ref : Ref) : List Nat :=
  match jsReprOf g i with
  | some repr => TopLevelSymbolToParts repr ref
  | none => []

/-- The symbol-list pointer of file `i`'s JS AST, when file `i` has a
JS-family representation (`some none` means a JS file whose pointer is nil). -/
def symbolsPointerOf (g : LinkerGraph) (i : Nat) : Option (Option (List Symbol)) :=
  match jsReprOf g i with
  | some repr => some repr.AST.Symbols
  | none => none

/-- The import-record list of a file representation. -/
def recordsOfFile (f : InputFile) : List ImportRecord :=
  match f.Repr with
  | FileRepr.js repr => repr.AST.ImportRecords
  | FileRepr.css repr => repr.AST.ImportRecords
  | FileRepr.empty => []

/-- The import-record list of file `i` of a graph. -/
def recordsOf (g : LinkerGraph) (i : Nat) : List ImportRecord :=
  recordsOfFile (g.Files.getD i defaultLinkerFile).InputFile

/-- Whether a part declares `ref` at top level. -/
def declaresTop (ref : Ref) (p : Part) : Bool :=
  p.DeclaredSymbols.any fun ds => ds.Ref = ref ∧ ds.IsTopLevel

/-- Lookup in a nil-able Go map. -/
def optLookup {α β : Type} [DecidableEq α] (m : Option (List (α × β))) (k : α) : Option β :=
  alookup (m.getD []) k

/-- The promotion loop's effect on the files array alone. -/
def promoteFiles (fs : List LinkerFile) : List Nat → List LinkerFile
  | [] => fs
  | x :: xs =>
    if kindAt fs x = EntryPointKind.none then
      promoteFiles (setKind fs x EntryPointKind.dynamicImport) xs
    else promoteFiles fs xs

/-- The candidates the promotion loop accepts, in processing order: the
first occurrence of each candidate whose file is not yet an entry point. -/
def selectPromoted (fs : List LinkerFile) : List Nat → List Nat
  | [] => []
  | x :: xs =>
    if kindAt fs x = EntryPointKind.none then
      x :: selectPromoted (setKind fs x EntryPointKind.dynamicImport) xs
    else selectPromoted fs xs

/-- The bitset-allocation component of the final pass. -/
def allocBits (fs : List LinkerFile) (reachableFiles : List Nat) (bitCount : Nat) :
    List LinkerFile :=
  reachableFiles.foldl
    (fun fs sourceIndex =>
      fs.set sourceIndex { fs.getD sourceIndex defaultLinkerFile with EntryBits := ⟨bitCount⟩ })
    fs

/-- The TypeScript-enum merge component of the final pass. -/
def mergeTS (fs : List LinkerFile) (reachableFiles : List Nat)
    (acc : Option (List (Ref × List (String × TSEnumValue)))) :
    Option (List (Ref × List (String × TSEnumValue))) :=
  reachableFiles.foldl
    (fun acc sourceIndex =>
      match (fs.getD sourceIndex defaultLinkerFile).InputFile.Repr with
      | FileRepr.js repr =>
        match repr.AST.TSEnums with
        | some m => some (asetAll (acc.getD []) m)
        | none => acc
      | _ => acc)
    acc

/-- The inlined-constant merge component of the final pass. -/
def mergeCV (fs : List LinkerFile) (reachableFiles : List Nat)
    (acc : Option (List (Ref × ConstValue))) : Option (List (Ref × ConstValue)) :=
  reachableFiles.foldl
    (fun acc sourceIndex =>
      match (fs.getD sourceIndex defaultLinkerFile).InputFile.Repr with
      | FileRepr.js repr =>
        match repr.AST.ConstValues with
        | some m => some (asetAll (acc.getD []) m)
        | none => acc
      | _ => acc)
    acc

/-- Relabel the file identity inside a symbol reference. -/
def relabelRef (π : Nat → Nat) (r : Ref) : Ref :=
  { r with SourceIndex := π r.SourceIndex }

/-- Relabel the file identities inside a symbol (its link). -/
def relabelSymbol (π : Nat → Nat) (s : Symbol) : Symbol :=
  { s with Link := relabelRef π s.Link }

/-- Relabel the resolved target of an import record. -/
def relabelRecord (π : Nat → Nat) (r : ImportRecord) : ImportRecord :=
  { r with SourceIndex := r.SourceIndex.map π }

/-- Relabel the file identities inside a part. -/
def relabelPart (π : Nat → Nat) (p : Part) : Part :=
  { DeclaredSymbols := p.DeclaredSymbols.map fun ds => { ds with Ref := relabelRef π ds.Ref }
    SymbolUses := p.SymbolUses.map (List.map fun e => (relabelRef π e.1, e.2))
    Dependencies := p.Dependencies.map fun d => { d with SourceIndex := π d.SourceIndex } }

/-- Relabel the file identities inside a JS AST. -/
def relabelJSAST (π : Nat → Nat) (a : JSAST) : JSAST :=
  { Symbols := a.Symbols.map (List.map (relabelSymbol π))
    Parts := a.Parts.map (relabelPart π)
    ImportRecords := a.ImportRecords.map (relabelRecord π)
    NamedImports := a.NamedImports.map fun e => (relabelRef π e.1, e.2)
    NamedExports := a.NamedExports.map fun e => (e.1, { e.2 with Ref := relabelRef π e.2.Ref })
    ModuleScope := ⟨a.ModuleScope.Generated.map (relabelRef π)⟩
    TopLevelSymbolToPartsFromParser :=
      a.TopLevelSymbolToPartsFromParser.map fun e => (relabelRef π e.1, e.2)
    TSEnums := a.TSEnums.map (List.map fun e => (relabelRef π e.1, e.2))
    ConstValues := a.ConstValues.map (List.map fun e => (relabelRef π e.1, e.2))
    ExportsRef := relabelRef π a.ExportsRef
    ModuleRef := relabelRef π a.ModuleRef
    UsesExportsRef := a.UsesExportsRef
    UsesModuleRef := a.UsesModuleRef }

/-- Relabel the file identities inside per-file metadata. -/
def relabelMeta (π : Nat → Nat) (m : JSReprMeta) : JSReprMeta :=
  { ResolvedExports :=
      m.ResolvedExports.map fun e =>
        (e.1, { Ref := relabelRef π e.2.Ref, SourceIndex := π e.2.SourceIndex,
                NameLoc := e.2.NameLoc })
    IsProbablyTypeScriptType :=
      m.IsProbablyTypeScriptType.map fun e => (relabelRef π e.1, e.2)
    ImportsToBind :=
      m.ImportsToBind.map fun e =>
        (relabelRef π e.1,
         { SourceIndex := π e.2.SourceIndex, Ref := relabelRef π e.2.Ref })
    TopLevelSymbolToPartsOverlay :=
      m.TopLevelSymbolToPartsOverlay.map (List.map fun e => (relabelRef π e.1, e.2)) }

/-- Relabel the file identities inside an input file. -/
def relabelInputFile (π : Nat → Nat) (f : InputFile) : InputFile :=
  match f.Repr with
  | FileRepr.js repr => ⟨FileRepr.js ⟨relabelJSAST π repr.AST, relabelMeta π repr.Meta⟩⟩
  | FileRepr.css repr =>
    ⟨FileRepr.css ⟨⟨repr.AST.ImportRecords.map (relabelRecord π)⟩⟩⟩
  | FileRepr.empty => f

/-- Relabel the file identity of an entry point. -/
def relabelEntryPoint (π : Nat → Nat) (ep : EntryPoint) : EntryPoint :=
  { ep with SourceIndex := π ep.SourceIndex }

/-- The files array before the parallel clone phase: zero-valued slots with
the initial entry points marked. -/
def initialFiles (inputFiles : List InputFile) (eps : List EntryPoint) : List LinkerFile :=
  markEntryPoints (List.replicate inputFiles.length defaultLinkerFile) eps

/-- The files array after the parallel clone phase. -/
def clonedFiles (inputFiles : List InputFile) (reach : List Nat) (eps : List EntryPoint)
    (cs : Bool) : List LinkerFile :=
  cloneFilesPhase cs inputFiles (initialFiles inputFiles eps) reach

/-- The stable indices of the promoted dynamic entry points, sorted. -/
def sortedPromotedStables (inputFiles : List InputFile) (reach : List Nat)
    (eps : List EntryPoint) (cs : Bool) (dyn : List Nat) : List Nat :=
  List.insertionSort (· ≤ ·)
    ((selectPromoted (clonedFiles inputFiles reach eps cs) dyn).map fun x =>
      (buildStable reach inputFiles.length).getD x 0)

/-- The final entry-point list: the caller's entry points followed by the
promoted dynamic-import entry points. -/
def finalEntryPoints (inputFiles : List InputFile) (reach : List Nat)
    (eps : List EntryPoint) (cs : Bool) (dyn : List Nat) : List EntryPoint :=
  eps ++ promotedEntryPoints reach (sortedPromotedStables inputFiles reach eps cs dyn)

/-- The part indices, starting at `base`, of the parts in `ps` that declare
`ref` at top level. -/
def declIdxs (base : Nat) (ps : List Part) (ref : Ref) : List Nat :=
  (List.enumFrom base ps).filterMap fun q => if declaresTop ref q.2 then some q.1 else none

/-- An invalid (unset) symbol reference (js_ast.InvalidRef). -/
def invalidRef : Ref := ⟨4294967295, 4294967295⟩

/-- Build a JS-family input file from the fields the examples vary. -/
def mkJSInput (symbols : Option (List Symbol)) (parts : List Part)
    (records : List ImportRecord) (parser : List (Ref × List Nat))
    (ts : Option (List (Ref × List (String × TSEnumValue)))) : InputFile :=
  ⟨FileRepr.js
    ⟨⟨symbols, parts, records, [], [], ⟨[]⟩, parser, ts, none, invalidRef, invalidRef,
      false, false⟩,
     ⟨[], [], [], none⟩⟩⟩

/-- A sample symbol. -/
def exSymbol : Symbol := ⟨1, "x", invalidRef⟩

/-- A JS file holding one symbol. -/
def exReprSym : JSRepr :=
  ⟨⟨some [exSymbol], [], [], [], [], ⟨[]⟩, [], none, none, invalidRef, invalidRef,
    false, false⟩,
   ⟨[], [], [], none⟩⟩

/-- An input file wrapping `exReprSym`. -/
def exFileSym : InputFile := ⟨FileRepr.js exReprSym⟩

/-- A JS file with a dynamic import record carrying an import assertion. -/
def exReprDynJS : JSRepr :=
  ⟨⟨none, [], [⟨ImportKind.Dynamic, some 0, some [("type", "json")]⟩], [], [], ⟨[]⟩,
    [], none, none, invalidRef, invalidRef, false, false⟩,
   ⟨[], [], [], none⟩⟩

/-- An input file wrapping `exReprDynJS`. -/
def exFileDynJS : InputFile := ⟨FileRepr.js exReprDynJS⟩

/-- A CSS file with a dynamic import record carrying an import assertion. -/
def exFileDynCSS : InputFile :=
  ⟨FileRepr.css ⟨⟨[⟨ImportKind.Dynamic, some 0, some [("type", "json")]⟩]⟩⟩⟩

/-- A user entry-point file that imports nothing. -/
def exEntryFile : InputFile := mkJSInput none [] [] [] none

/-- A file dynamically importing file 3. -/
def exImporter1 : InputFile := mkJSInput none [] [⟨ImportKind.Dynamic, some 3, none⟩] [] none

/-- A second, distinct file also dynamically importing file 3. -/
def exImporter2 : InputFile := mkJSInput none [] [⟨ImportKind.Dynamic, some 3, none⟩] [] none

/-- The dynamically imported target file. -/
def exTarget : InputFile := mkJSInput none [] [] [] none

/-- A file with one part, used to record symbol uses from. -/
def exUseFile : InputFile := mkJSInput (some []) [⟨[], none, []⟩] [] [(⟨0, 7⟩, [0])] none

/-- A file whose symbol 0 is declared by its two parts per the parser table. -/
def exOwnFile : InputFile :=
  mkJSInput (some []) [⟨[], none, []⟩, ⟨[], none, []⟩] [] [(⟨1, 0⟩, [0, 1])] none

/-- A small linking graph for exercising the mutators. -/
def exGraph : LinkerGraph := CloneLinkerGraph [exUseFile, exOwnFile] [0, 1] [] false

/-- The graph after recording two uses of symbol (1,0) on part 0 of file 0. -/
def exG3 : Option LinkerGraph := GenerateSymbolImportAndUse exGraph 0 0 ⟨1, 0⟩ 2 1

/-- The graph after recording a use of a symbol owned by the using file. -/
def exG4 : Option LinkerGraph := GenerateSymbolImportAndUse exGraph 0 0 ⟨0, 5⟩ 1 0

/-- The graph after a further three uses of symbol (1,0) on the same part. -/
def exG8b : Option LinkerGraph :=
  GenerateSymbolImportAndUse (exG3.getD exGraph) 0 0 ⟨1, 0⟩ 3 1

/-- A part declaring symbol (0,7) at top level, with an absent use map. -/
def exPart7 : Part := ⟨[⟨⟨0, 7⟩, true⟩], none, []⟩

/-- The graph and part indices after adding `exPart7` twice to file 0. -/
def exG7 : Option (LinkerGraph × List Nat) := addPartsToFile exGraph 0 [exPart7, exPart7]

/-- The TypeScript-enum table of a file representation (none unless JS). -/
def tsTableOfFile (f : InputFile) : Option (List (Ref × List (String × TSEnumValue))) :=
  match f.Repr with
  | FileRepr.js repr => repr.AST.TSEnums
  | _ => none

/-- The inlined-constant table of a file representation (none unless JS). -/
def cvTableOfFile (f : InputFile) : Option (List (Ref × ConstValue)) :=
  match f.Repr with
  | FileRepr.js repr => repr.AST.ConstValues
  | _ => none

/-- Relabel the keys of a Ref-keyed table. -/
def relabelTable {β : Type} (π : Nat → Nat) (m : List (Ref × β)) : List (Ref × β) :=
  m.map fun e => (relabelRef π e.1, e.2)

/-- The file-identity permutation of the determinism counterexample: swap
files 0 and 1. -/
def cexPi : Nat → Nat := fun i => if i = 0 then 1 else if i = 1 then 0 else i

/-- A JS file carrying a TypeScript enum table keyed by its own symbol. -/
def cexFileEnum : InputFile :=
  mkJSInput none [] [] [] (some [(⟨0, 0⟩, [("A", ⟨1⟩)])])

/-- A plain JS file. -/
def cexFilePlain : InputFile := mkJSInput none [] [] [] none

/-- The counterexample's first run inputs: the enum-carrying file is file 0. -/
def cexInputs1 : List InputFile := [cexFileEnum, cexFilePlain]

/-- The counterexample's second run inputs: file identities swapped by
`cexPi` and all identities inside the files relabeled accordingly. -/
def cexInputs2 : List InputFile :=
  [relabelInputFile cexPi cexFilePlain, relabelInputFile cexPi cexFileEnum]

/-- The counterexample's first run entry points. -/
def cexEps1 : List EntryPoint := [⟨"", 0, false⟩]

/-! ### Basic lemmas about list updates and association lists -/

theorem getD_set_self {α : Type} (l : List α) {i : Nat} (h : i < l.length) (v d : α) :
    (l.set i v).getD i d = v := by
  simp [List.getD_eq_getElem?_getD, List.getElem?_set_self h]

theorem getD_set_ne {α : Type} (l : List α) {i j : Nat} (h : i ≠ j) (v d : α) :
    (l.set i v).getD j d = l.getD j d := by
  simp [List.getD_eq_getElem?_getD, List.getElem?_set_ne h]

theorem getD_replicate {α : Type} {n i : Nat} (h : i < n) (x d : α) :
    (List.replicate n x).getD i d = x := by
  simp [List.getD_eq_getElem?_getD, List.getElem?_replicate, h]

theorem getD_oob {α : Type} (l : List α) {i : Nat} (h : l.length ≤ i) (d : α) :
    l.getD i d = d :=
  List.getD_eq_default l d h

theorem alookup_aset_self {α β : Type} [DecidableEq α] (m : List (α × β)) (k : α) (v : β) :
    alookup (aset m k v) k = some v := by
  induction m with
  | nil => simp [aset, alookup]
  | cons e rest ih =>
    obtain ⟨a, b⟩ := e
    by_cases h : a = k <;> simp [aset, alookup, h, ih]

theorem alookup_aset_ne {α β : Type} [DecidableEq α] (m : List (α × β)) {k k' : α}
    (h : k ≠ k') (v : β) : alookup (aset m k v) k' = alookup m k' := by
  induction m with
  | nil => simp [aset, alookup, h]
  | cons e rest ih =>
    obtain ⟨a, b⟩ := e
    by_cases ha : a = k
    · subst ha
      simp [aset, alookup, h]
    · by_cases ha' : a = k'
      · subst ha'
        simp [aset, alookup, ha, Ne.symm h]
      · simp [aset, alookup, ha, ha', ih]

/-! ### Lemmas about the files array primitives -/

theorem length_setKind (fs : List LinkerFile) (i : Nat) (k : EntryPointKind) :
    (setKind fs i k).length = fs.length := by
  simp [setKind]

theorem kindAt_setKind_self {fs : List LinkerFile} {i : Nat} (h : i < fs.length)
    (k : EntryPointKind) : kindAt (setKind fs i k) i = k := by
  simp only [kindAt, setKind]
  rw [getD_set_self fs h]

theorem kindAt_setKind_ne (fs : List LinkerFile) {i j : Nat} (h : i ≠ j)
    (k : EntryPointKind) : kindAt (setKind fs i k) j = kindAt fs j := by
  simp only [kindAt, setKind]
  rw [getD_set_ne fs h]

theorem getElem?_setKind (fs : List LinkerFile) (i j : Nat) (k : EntryPointKind) :
    (setKind fs i k)[j]? =
      if i = j then (fs[j]?).map (fun f => { f with entryPointKind := k }) else fs[j]? := by
  by_cases h : i = j
  · subst h
    by_cases hlt : i < fs.length
    · have : fs.getD i defaultLinkerFile = fs[i] := by
        simp [List.getD_eq_getElem?_getD, List.getElem?_eq_getElem hlt]
      simp [setKind, List.getElem?_set_self hlt, this, List.getElem?_eq_getElem hlt]
    · have hle : fs.length ≤ i := Nat.le_of_not_lt hlt
      simp [setKind, List.getElem?_eq_none_iff.mpr hle,
        List.set_eq_of_length_le hle]
  · simp [setKind, List.getElem?_set_ne h, h]

theorem markEntryPoints_cons (fs : List LinkerFile) (ep : EntryPoint) (eps : List EntryPoint) :
    markEntryPoints fs (ep :: eps) =
      markEntryPoints (setKind fs ep.SourceIndex EntryPointKind.userSpecified) eps := rfl

theorem getElem?_markEntryPoints (fs : List LinkerFile) (eps : List EntryPoint) (j : Nat) :
    (markEntryPoints fs eps)[j]? =
      (fs[j]?).map fun f =>
        if j ∈ eps.map (·.SourceIndex) then
          { f with entryPointKind := EntryPointKind.userSpecified }
        else f := by
  induction eps generalizing fs with
  | nil => cases h : fs[j]? <;> simp [markEntryPoints, h]
  | cons ep eps ih =>
    rw [markEntryPoints_cons, ih, getElem?_setKind]
    by_cases hj : ep.SourceIndex = j
    · subst hj
      cases h : fs[ep.SourceIndex]? with
      | none => simp
      | some f => by_cases hm : ep.SourceIndex ∈ eps.map (·.SourceIndex) <;> simp [hm]
    · cases h : fs[j]? with
      | none => simp [hj]
      | some f =>
        by_cases hm : j ∈ eps.map (·.SourceIndex) <;> simp [hj, hm, Ne.symm hj]

theorem length_markEntryPoints (fs : List LinkerFile) (eps : List EntryPoint) :
    (markEntryPoints fs eps).length = fs.length := by
  have h := getElem?_markEntryPoints fs eps
  by_cases hle : (markEntryPoints fs eps).length ≤ fs.length
  · by_cases hge : fs.length ≤ (markEntryPoints fs eps).length
    · exact Nat.le_antisymm hle hge
    · exfalso
      have hlt : (markEntryPoints fs eps).length < fs.length := Nat.lt_of_not_le hge
      have := h (markEntryPoints fs eps).length
      rw [List.getElem?_eq_none_iff.mpr (Nat.le_refl _)] at this
      rw [List.getElem?_eq_getElem hlt] at this
      simp at this
  · exfalso
    have hlt : fs.length < (markEntryPoints fs eps).length := Nat.lt_of_not_le hle
    have := h fs.length
    rw [List.getElem?_eq_none_iff.mpr (Nat.le_refl _)] at this
    rw [List.getElem?_eq_getElem hlt] at this
    simp at this

/-- The per-slot transformation applied by the clone phase. -/
theorem getElem?_cloneSlot (codeSplitting : Bool) (inputFiles : List InputFile)
    (fs : List LinkerFile) (si j : Nat) :
    (cloneSlot codeSplitting inputFiles fs si)[j]? =
      if si = j then
        (fs[j]?).map fun f =>
          { f with
            InputFile :=
              cloneInputFile codeSplitting j (inputFiles.getD j ⟨FileRepr.empty⟩)
            DistanceFromEntryPoint := distanceInfinity }
      else fs[j]? := by
  by_cases h : si = j
  · subst h
    by_cases hlt : si < fs.length
    · have : fs.getD si defaultLinkerFile = fs[si] := by
        simp [List.getD_eq_getElem?_getD, List.getElem?_eq_getElem hlt]
      simp [cloneSlot, List.getElem?_set_self hlt, this, List.getElem?_eq_getElem hlt]
    · have hle : fs.length ≤ si := Nat.le_of_not_lt hlt
      simp [cloneSlot, List.getElem?_eq_none_iff.mpr hle, List.set_eq_of_length_le hle]
  · simp [cloneSlot, List.getElem?_set_ne h, h]

theorem cloneFilesPhase_cons (codeSplitting : Bool) (inputFiles : List InputFile)
    (fs : List LinkerFile) (si : Nat) (reach : List Nat) :
    cloneFilesPhase codeSplitting inputFiles fs (si :: reach) =
      cloneFilesPhase codeSplitting inputFiles
        (cloneSlot codeSplitting inputFiles fs si) reach := rfl

theorem getElem?_cloneFilesPhase (codeSplitting : Bool) (inputFiles : List InputFile)
    (fs : List LinkerFile) (reach : List Nat) (j : Nat) :
    (cloneFilesPhase codeSplitting inputFiles fs reach)[j]? =
      (fs[j]?).map fun f =>
        if j ∈ reach then
          { f with
            InputFile :=
              cloneInputFile codeSplitting j (inputFiles.getD j ⟨FileRepr.empty⟩)
            DistanceFromEntryPoint := distanceInfinity }
        else f := by
  induction reach generalizing fs with
  | nil => cases h : fs[j]? <;> simp [cloneFilesPhase, h]
  | cons si reach ih =>
    rw [cloneFilesPhase_cons, ih, getElem?_cloneSlot]
    by_cases hj : si = j
    · subst hj
      cases h : fs[si]? with
      | none => simp
      | some f => by_cases hm : si ∈ reach <;> simp [hm]
    · cases h : fs[j]? with
      | none => simp [hj]
      | some f =>
        by_cases hm : j ∈ reach <;> simp [hj, hm, Ne.symm hj]

theorem buildSymbols_step_not_mem (inputFiles : List InputFile) (reach : List Nat)
    (tbl : List (Option (List Symbol))) {j : Nat} (h : j ∉ reach) :
    (reach.foldl
      (fun tbl sourceIndex =>
        match fileSymbolsOf (inputFiles.getD sourceIndex ⟨FileRepr.empty⟩) with
        | some syms => tbl.set sourceIndex (some syms)
        | none => tbl)
      tbl)[j]? = tbl[j]? := by
  induction reach generalizing tbl with
  | nil => rfl
  | cons si reach ih =>
    have hne : j ∉ reach := fun hm => h (List.mem_cons_of_mem _ hm)
    have hsi : si ≠ j := fun he => h (he ▸ List.mem_cons_self _ _)
    rw [List.foldl_cons]
    cases hf : fileSymbolsOf (inputFiles.getD si ⟨FileRepr.empty⟩) with
    | none => simpa [hf] using ih tbl hne
    | some syms =>
      simpa [hf] using
        (ih (tbl.set si (some syms)) hne).trans (List.getElem?_set_ne hsi)

theorem buildSymbols_fold_mem (inputFiles : List InputFile) (reach : List Nat)
    (tbl : List (Option (List Symbol))) {j : Nat} {syms : List Symbol}
    (hmem : j ∈ reach) (hj : j < tbl.length)
    (hf : fileSymbolsOf (inputFiles.getD j ⟨FileRepr.empty⟩) = some syms) :
    (reach.foldl
      (fun tbl sourceIndex =>
        match fileSymbolsOf (inputFiles.getD sourceIndex ⟨FileRepr.empty⟩) with
        | some syms => tbl.set sourceIndex (some syms)
        | none => tbl)
      tbl)[j]? = some (some syms) := by
  induction reach generalizing tbl with
  | nil => cases hmem
  | cons si reach ih =>
    rw [List.foldl_cons]
    by_cases hsi : si = j
    · subst hsi
      rw [hf]
      by_cases hmem' : si ∈ reach
      · exact ih _ hmem' (by simpa using hj)
      · rw [buildSymbols_step_not_mem inputFiles reach _ hmem']
        exact List.getElem?_set_self hj
    · have hmem' : j ∈ reach := by
        cases hmem with
        | head => exact absurd rfl hsi
        | tail _ hm => exact hm
      cases hg : fileSymbolsOf (inputFiles.getD si ⟨FileRepr.empty⟩) with
      | none => exact ih tbl hmem' hj
      | some s2 => exact ih _ hmem' (by simpa using hj)

theorem getElem?_buildSymbols (inputFiles : List InputFile) (reach : List Nat) (n : Nat)
    {j : Nat} {syms : List Symbol} (hmem : j ∈ reach) (hj : j < n)
    (hf : fileSymbolsOf (inputFiles.getD j ⟨FileRepr.empty⟩) = some syms) :
    (buildSymbols inputFiles reach n)[j]? = some (some syms) :=
  buildSymbols_fold_mem inputFiles reach _ hmem (by simpa using hj) hf

/-! ### Lemmas about the stable-index array -/

theorem stableFold_getD_not_mem (l : List Nat) (k : Nat) (st : List Nat) {i : Nat}
    (h : i ∉ l) (d : Nat) :
    ((List.enumFrom k l).foldl (fun st q => st.set q.2 q.1) st).getD i d = st.getD i d := by
  induction l generalizing k st with
  | nil => rfl
  | cons x l ih =>
    have hne : i ∉ l := fun hm => h (List.mem_cons_of_mem _ hm)
    have hx : x ≠ i := fun he => h (he ▸ List.mem_cons_self _ _)
    simp only [List.enumFrom, List.foldl_cons]
    rw [ih (k + 1) _ hne, getD_set_ne st hx]

theorem stableFold_length (l : List Nat) (k : Nat) (st : List Nat) :
    ((List.enumFrom k l).foldl (fun st q => st.set q.2 q.1) st).length = st.length := by
  induction l generalizing k st with
  | nil => rfl
  | cons x l ih =>
    simp only [List.enumFrom, List.foldl_cons]
    rw [ih (k + 1)]
    exact List.length_set st x k

theorem stableFold_get (l : List Nat) (k : Nat) (st : List Nat) (hnd : l.Nodup)
    (hb : ∀ x ∈ l, x < st.length) (p : Nat) (hp : p < l.length) :
    ((List.enumFrom k l).foldl (fun st q => st.set q.2 q.1) st).getD (l.get ⟨p, hp⟩) 0 =
      k + p := by
  induction l generalizing k st p with
  | nil => cases hp
  | cons x l ih =>
    simp only [List.enumFrom, List.foldl_cons]
    cases p with
    | zero =>
      have hx : x ∉ l := (List.nodup_cons.mp hnd).1
      rw [show (x :: l).get ⟨0, hp⟩ = x from rfl]
      rw [stableFold_getD_not_mem l (k + 1) _ hx]
      rw [getD_set_self st (hb x (List.mem_cons_self _ _)) k]
      omega
    | succ p' =>
      have hp' : p' < l.length := Nat.lt_of_succ_lt_succ hp
      have := ih (k + 1) (st.set x k) (List.nodup_cons.mp hnd).2
        (fun y hy => by rw [List.length_set]; exact hb y (List.mem_cons_of_mem _ hy)) p' hp'
      rw [show (x :: l).get ⟨p' + 1, hp⟩ = l.get ⟨p', hp'⟩ from rfl, this]
      omega

theorem length_buildStable (reach : List Nat) (n : Nat) :
    (buildStable reach n).length = n := by
  simp only [buildStable, List.enum_eq_enumFrom]
  rw [stableFold_length]
  exact List.length_replicate n 0

theorem buildStable_not_mem (reach : List Nat) (n : Nat) {i : Nat} (h : i ∉ reach) :
    (buildStable reach n).getD i 0 = 0 := by
  simp only [buildStable, List.enum_eq_enumFrom]
  rw [stableFold_getD_not_mem reach 0 _ h]
  by_cases hi : i < n
  · exact getD_replicate hi 0 0
  · exact getD_oob _ (by simpa using Nat.le_of_not_lt hi) 0

theorem buildStable_get (reach : List Nat) (n : Nat) (hnd : reach.Nodup)
    (hb : ∀ x ∈ reach, x < n) (p : Nat) (hp : p < reach.length) :
    (buildStable reach n).getD (reach.get ⟨p, hp⟩) 0 = p := by
  simp only [buildStable, List.enum_eq_enumFrom]
  have := stableFold_get reach 0 (List.replicate n 0) hnd
    (fun x hx => by simpa using hb x hx) p hp
  simpa using this

theorem buildStable_lt_length (reach : List Nat) (n : Nat) (hnd : reach.Nodup)
    (hb : ∀ x ∈ reach, x < n) {x : Nat} (hx : x ∈ reach) :
    (buildStable reach n).getD x 0 < reach.length := by
  obtain ⟨p, hp, rfl⟩ := List.mem_iff_get.mp hx
  rw [buildStable_get reach n hnd hb p.1 p.2]
  exact p.2

theorem buildStable_roundtrip (reach : List Nat) (n : Nat) (hnd : reach.Nodup)
    (hb : ∀ x ∈ reach, x < n) {x : Nat} (hx : x ∈ reach) :
    reach.getD ((buildStable reach n).getD x 0) 0 = x := by
  obtain ⟨p, hp, rfl⟩ := List.mem_iff_get.mp hx
  rw [buildStable_get reach n hnd hb p.1 p.2]
  simp [List.getD_eq_getElem?_getD, List.getElem?_eq_getElem p.2]

/-! ### Lemmas about dynamic entry-point promotion -/

theorem length_eq_of_isSome_iff {α β : Type} {l1 : List α} {l2 : List β}
    (h : ∀ j : Nat, l2[j]?.isSome ↔ l1[j]?.isSome) : l2.length = l1.length := by
  by_contra hne
  rcases Nat.lt_or_ge l2.length l1.length with hlt | hge
  · have h1 : l1[l2.length]?.isSome := by
      simp [List.getElem?_eq_getElem hlt]
    have h2 : l2[l2.length]? = none := List.getElem?_eq_none_iff.mpr (Nat.le_refl _)
    rw [← h] at h1
    rw [h2] at h1
    cases h1
  · have hlt : l1.length < l2.length := by
      rcases Nat.eq_or_lt_of_le hge with he | hl
      · exact absurd he.symm hne
      · exact hl
    have h1 : l2[l1.length]?.isSome := by
      simp [List.getElem?_eq_getElem hlt]
    have h2 : l1[l1.length]? = none := List.getElem?_eq_none_iff.mpr (Nat.le_refl _)
    rw [h] at h1
    rw [h2] at h1
    cases h1

theorem promoteDynamic_fold (st : List Nat) (dyn : List Nat) :
    ∀ (fs : List LinkerFile) (acc : List Nat),
      dyn.foldl
        (fun acc sourceIndex =>
          if (acc.1.getD sourceIndex defaultLinkerFile).entryPointKind = EntryPointKind.none then
            (setKind acc.1 sourceIndex EntryPointKind.dynamicImport,
             acc.2 ++ [st.getD sourceIndex 0])
          else acc)
        (fs, acc) =
      (promoteFiles fs dyn, acc ++ (selectPromoted fs dyn).map fun x => st.getD x 0) := by
  induction dyn with
  | nil => intro fs acc; simp [promoteFiles, selectPromoted]
  | cons x xs ih =>
    intro fs acc
    rw [List.foldl_cons]
    by_cases h : kindAt fs x = EntryPointKind.none
    · have h' : (fs.getD x defaultLinkerFile).entryPointKind = EntryPointKind.none := h
      rw [if_pos h', ih]
      simp [promoteFiles, selectPromoted, h]
    · have h' : ¬(fs.getD x defaultLinkerFile).entryPointKind = EntryPointKind.none := h
      rw [if_neg h', ih]
      simp [promoteFiles, selectPromoted, h]

theorem promoteDynamic_eq (fs : List LinkerFile) (st : List Nat) (dyn : List Nat) :
    promoteDynamic fs st dyn =
      (promoteFiles fs dyn, (selectPromoted fs dyn).map fun x => st.getD x 0) := by
  have := promoteDynamic_fold st dyn fs []
  simpa [promoteDynamic] using this

theorem getElem?_promoteFiles (dyn : List Nat) :
    ∀ (fs : List LinkerFile) (j : Nat),
      (promoteFiles fs dyn)[j]? =
        (fs[j]?).map fun f =>
          if j ∈ dyn ∧ f.entryPointKind = EntryPointKind.none then
            { f with entryPointKind := EntryPointKind.dynamicImport }
          else f := by
  induction dyn with
  | nil =>
    intro fs j
    cases h : fs[j]? <;> simp [promoteFiles, h]
  | cons x xs ih =>
    intro fs j
    by_cases h : kindAt fs x = EntryPointKind.none
    · rw [show promoteFiles fs (x :: xs) =
          promoteFiles (setKind fs x EntryPointKind.dynamicImport) xs by
        simp [promoteFiles, h]]
      rw [ih, getElem?_setKind]
      by_cases hj : x = j
      · subst hj
        cases hf : fs[x]? with
        | none => simp
        | some f =>
          have hk : f.entryPointKind = EntryPointKind.none := by
            have hlt : x < fs.length := by
              by_contra hge
              rw [List.getElem?_eq_none_iff.mpr (Nat.le_of_not_lt hge)] at hf
              cases hf
            have : fs.getD x defaultLinkerFile = f := by
              rw [List.getD_eq_getElem?_getD, hf]
              rfl
            rw [← this]
            exact h
          by_cases hm : x ∈ xs <;> simp [hm, hk]
      · cases hf : fs[j]? with
        | none => simp [hj]
        | some f => by_cases hm : j ∈ xs <;> by_cases hk : f.entryPointKind = EntryPointKind.none <;>
            simp [hj, hm, hk, Ne.symm hj]
    · rw [show promoteFiles fs (x :: xs) = promoteFiles fs xs by simp [promoteFiles, h]]
      rw [ih]
      by_cases hj : x = j
      · subst hj
        cases hf : fs[x]? with
        | none => simp
        | some f =>
          have hk : ¬f.entryPointKind = EntryPointKind.none := by
            intro hk
            apply h
            have hlt : x < fs.length := by
              by_contra hge
              rw [List.getElem?_eq_none_iff.mpr (Nat.le_of_not_lt hge)] at hf
              cases hf
            show (fs.getD x defaultLinkerFile).entryPointKind = EntryPointKind.none
            rw [List.getD_eq_getElem?_getD, hf]
            exact hk
          by_cases hm : x ∈ xs <;> simp [hm, hk]
      · cases hf : fs[j]? with
        | none => simp [hj]
        | some f => by_cases hm : j ∈ xs <;> by_cases hk : f.entryPointKind = EntryPointKind.none <;>
            simp [hj, hm, hk, Ne.symm hj]

theorem length_promoteFiles (fs : List LinkerFile) (dyn : List Nat) :
    (promoteFiles fs dyn).length = fs.length := by
  apply length_eq_of_isSome_iff
  intro j
  rw [getElem?_promoteFiles]
  cases fs[j]? <;> simp

theorem mem_selectPromoted (dyn : List Nat) :
    ∀ (fs : List LinkerFile), (∀ x ∈ dyn, x < fs.length) → ∀ y,
      (y ∈ selectPromoted fs dyn ↔ y ∈ dyn ∧ kindAt fs y = EntryPointKind.none) := by
  induction dyn with
  | nil => intro fs _ y; simp [selectPromoted]
  | cons x xs ih =>
    intro fs hb y
    by_cases h : kindAt fs x = EntryPointKind.none
    · rw [show selectPromoted fs (x :: xs) =
          x :: selectPromoted (setKind fs x EntryPointKind.dynamicImport) xs by
        simp [selectPromoted, h]]
      have hb' : ∀ z ∈ xs, z < (setKind fs x EntryPointKind.dynamicImport).length := by
        intro z hz
        rw [length_setKind]
        exact hb z (List.mem_cons_of_mem _ hz)
      rw [List.mem_cons, ih _ hb' y]
      by_cases hy : y = x
      · subst hy
        simp [h]
      · rw [kindAt_setKind_ne fs (fun he => hy he.symm)]
        simp [hy]
    · rw [show selectPromoted fs (x :: xs) = selectPromoted fs xs by simp [selectPromoted, h]]
      rw [ih _ (fun z hz => hb z (List.mem_cons_of_mem _ hz)) y]
      by_cases hy : y = x
      · subst hy
        simp [h]
      · simp [hy]

theorem nodup_selectPromoted (dyn : List Nat) :
    ∀ (fs : List LinkerFile), (∀ x ∈ dyn, x < fs.length) → (selectPromoted fs dyn).Nodup := by
  induction dyn with
  | nil => intro fs _; simp [selectPromoted]
  | cons x xs ih =>
    intro fs hb
    by_cases h : kindAt fs x = EntryPointKind.none
    · rw [show selectPromoted fs (x :: xs) =
          x :: selectPromoted (setKind fs x EntryPointKind.dynamicImport) xs by
        simp [selectPromoted, h]]
      have hb' : ∀ z ∈ xs, z < (setKind fs x EntryPointKind.dynamicImport).length := by
        intro z hz
        rw [length_setKind]
        exact hb z (List.mem_cons_of_mem _ hz)
      refine List.nodup_cons.mpr ⟨?_, ih _ hb'⟩
      rw [mem_selectPromoted xs _ hb' x]
      rintro ⟨-, hk⟩
      rw [kindAt_setKind_self (hb x (List.mem_cons_self _ _))] at hk
      cases hk
    · rw [show selectPromoted fs (x :: xs) = selectPromoted fs xs by simp [selectPromoted, h]]
      exact ih _ (fun z hz => hb z (List.mem_cons_of_mem _ hz))

theorem selectPromoted_perm {dyn1 dyn2 : List Nat} (fs : List LinkerFile)
    (hperm : dyn1.Perm dyn2) (hb : ∀ x ∈ dyn1, x < fs.length) :
    (selectPromoted fs dyn1).Perm (selectPromoted fs dyn2) := by
  have hb2 : ∀ x ∈ dyn2, x < fs.length := fun x hx => hb x (hperm.mem_iff.mpr hx)
  apply List.perm_of_nodup_nodup_toFinset_eq (nodup_selectPromoted dyn1 fs hb)
    (nodup_selectPromoted dyn2 fs hb2)
  apply Finset.ext
  intro y
  rw [List.mem_toFinset, List.mem_toFinset, mem_selectPromoted dyn1 fs hb y,
    mem_selectPromoted dyn2 fs hb2 y, hperm.mem_iff]

theorem insertionSort_eq_of_perm {l1 l2 : List Nat} (h : l1.Perm l2) :
    List.insertionSort (· ≤ ·) l1 = List.insertionSort (· ≤ ·) l2 := by
  exact @List.eq_of_perm_of_sorted Nat (· ≤ ·) _ _ _
    (((List.perm_insertionSort _ l1).trans h).trans (List.perm_insertionSort _ l2).symm)
    (List.sorted_insertionSort _ l1) (List.sorted_insertionSort _ l2)

/-! ### Lemmas about the final pass -/

theorem getElem?_set_getD (fs : List LinkerFile) (si j : Nat) (F : LinkerFile → LinkerFile) :
    (fs.set si (F (fs.getD si defaultLinkerFile)))[j]? =
      if si = j then (fs[j]?).map F else fs[j]? := by
  by_cases h : si = j
  · subst h
    by_cases hlt : si < fs.length
    · have : fs.getD si defaultLinkerFile = fs[si] := by
        simp [List.getD_eq_getElem?_getD, List.getElem?_eq_getElem hlt]
      simp [List.getElem?_set_self hlt, this, List.getElem?_eq_getElem hlt]
    · have hle : fs.length ≤ si := Nat.le_of_not_lt hlt
      simp [List.getElem?_eq_none_iff.mpr hle, List.set_eq_of_length_le hle]
  · simp [List.getElem?_set_ne h, h]

theorem getElem?_allocBits (reach : List Nat) :
    ∀ (fs : List LinkerFile) (bc : Nat) (j : Nat),
      (allocBits fs reach bc)[j]? =
        (fs[j]?).map fun f => if j ∈ reach then { f with EntryBits := ⟨bc⟩ } else f := by
  induction reach with
  | nil =>
    intro fs bc j
    cases h : fs[j]? <;> simp [allocBits, h]
  | cons si reach ih =>
    intro fs bc j
    rw [show allocBits fs (si :: reach) bc =
        allocBits (fs.set si { fs.getD si defaultLinkerFile with EntryBits := ⟨bc⟩ }) reach bc
      from rfl]
    rw [ih, getElem?_set_getD fs si j (fun f => { f with EntryBits := ⟨bc⟩ })]
    by_cases hj : si = j
    · subst hj
      cases h : fs[si]? with
      | none => simp
      | some f => by_cases hm : si ∈ reach <;> simp [hm]
    · cases h : fs[j]? with
      | none => simp [hj]
      | some f => by_cases hm : j ∈ reach <;> simp [hj, hm, Ne.symm hj]

theorem inputFile_getD_set (fs : List LinkerFile) (si i : Nat) (F : LinkerFile → LinkerFile)
    (hF : ∀ f, (F f).InputFile = f.InputFile) :
    ((fs.set si (F (fs.getD si defaultLinkerFile))).getD i defaultLinkerFile).InputFile =
      (fs.getD i defaultLinkerFile).InputFile := by
  by_cases h : si = i
  · subst h
    by_cases hlt : si < fs.length
    · rw [getD_set_self fs hlt]
      exact hF _
    · rw [List.set_eq_of_length_le (Nat.le_of_not_lt hlt)]
  · rw [getD_set_ne fs h]

theorem mergeTS_congr (reach : List Nat) :
    ∀ {fs1 fs2 : List LinkerFile},
      (∀ i : Nat, (fs1.getD i defaultLinkerFile).InputFile =
        (fs2.getD i defaultLinkerFile).InputFile) →
      ∀ acc, mergeTS fs1 reach acc = mergeTS fs2 reach acc := by
  induction reach with
  | nil => intro fs1 fs2 _ acc; rfl
  | cons si reach ih =>
    intro fs1 fs2 h acc
    show mergeTS fs1 reach _ = mergeTS fs2 reach _
    simp only [h si]
    exact ih h _

theorem mergeCV_congr (reach : List Nat) :
    ∀ {fs1 fs2 : List LinkerFile},
      (∀ i : Nat, (fs1.getD i defaultLinkerFile).InputFile =
        (fs2.getD i defaultLinkerFile).InputFile) →
      ∀ acc, mergeCV fs1 reach acc = mergeCV fs2 reach acc := by
  induction reach with
  | nil => intro fs1 fs2 _ acc; rfl
  | cons si reach ih =>
    intro fs1 fs2 h acc
    show mergeCV fs1 reach _ = mergeCV fs2 reach _
    simp only [h si]
    exact ih h _

theorem finalPass_eq (bc : Nat) (reach : List Nat) :
    ∀ (fs : List LinkerFile) (ts : Option (List (Ref × List (String × TSEnumValue))))
      (cv : Option (List (Ref × ConstValue))),
      reach.foldl
        (fun acc sourceIndex =>
          let file := acc.1.getD sourceIndex defaultLinkerFile
          let fs' := acc.1.set sourceIndex { file with EntryBits := ⟨bc⟩ }
          let ts :=
            match file.InputFile.Repr with
            | FileRepr.js repr =>
              match repr.AST.TSEnums with
              | some m => some (asetAll (acc.2.1.getD []) m)
              | none => acc.2.1
            | _ => acc.2.1
          let cv :=
            match file.InputFile.Repr with
            | FileRepr.js repr =>
              match repr.AST.ConstValues with
              | some m => some (asetAll (acc.2.2.getD []) m)
              | none => acc.2.2
            | _ => acc.2.2
          (fs', ts, cv))
        (fs, ts, cv) =
      (allocBits fs reach bc, mergeTS fs reach ts, mergeCV fs reach cv) := by
  induction reach with
  | nil => intro fs ts cv; rfl
  | cons si reach ih =>
    intro fs ts cv
    rw [List.foldl_cons, ih]
    have hpres : ∀ i : Nat,
        ((fs.set si { fs.getD si defaultLinkerFile with EntryBits := ⟨bc⟩ }).getD i
          defaultLinkerFile).InputFile = (fs.getD i defaultLinkerFile).InputFile :=
      fun i => inputFile_getD_set fs si i (fun f => { f with EntryBits := ⟨bc⟩ })
        (fun f => rfl)
    show (allocBits _ reach bc, mergeTS _ reach _, mergeCV _ reach _) =
      (allocBits fs (si :: reach) bc, mergeTS fs (si :: reach) ts, mergeCV fs (si :: reach) cv)
    rw [show allocBits fs (si :: reach) bc =
        allocBits (fs.set si { fs.getD si defaultLinkerFile with EntryBits := ⟨bc⟩ }) reach bc
      from rfl]
    rw [show mergeTS fs (si :: reach) ts = mergeTS fs reach
        (match (fs.getD si defaultLinkerFile).InputFile.Repr with
          | FileRepr.js repr =>
            match repr.AST.TSEnums with
            | some m => some (asetAll (ts.getD []) m)
            | none => ts
          | _ => ts) from rfl]
    rw [show mergeCV fs (si :: reach) cv = mergeCV fs reach
        (match (fs.getD si defaultLinkerFile).InputFile.Repr with
          | FileRepr.js repr =>
            match repr.AST.ConstValues with
            | some m => some (asetAll (cv.getD []) m)
            | none => cv
          | _ => cv) from rfl]
    rw [mergeTS_congr reach hpres, mergeCV_congr reach hpres]

theorem finalPass_def (fs : List LinkerFile) (reach : List Nat) (bc : Nat) :
    finalPass fs reach bc = (allocBits fs reach bc, mergeTS fs reach none, mergeCV fs reach none) :=
  finalPass_eq bc reach fs none none

/-! ### Scheduling-invariance of graph construction -/

theorem length_cloneFilesPhase (codeSplitting : Bool) (inputFiles : List InputFile)
    (fs : List LinkerFile) (reach : List Nat) :
    (cloneFilesPhase codeSplitting inputFiles fs reach).length = fs.length := by
  apply length_eq_of_isSome_iff
  intro j
  rw [getElem?_cloneFilesPhase]
  cases fs[j]? <;> simp

theorem promoteFiles_congr_perm {dyn1 dyn2 : List Nat} (fs : List LinkerFile)
    (hperm : dyn1.Perm dyn2) : promoteFiles fs dyn1 = promoteFiles fs dyn2 := by
  apply List.ext_getElem?
  intro j
  rw [getElem?_promoteFiles, getElem?_promoteFiles]
  cases h : fs[j]? with
  | none => rfl
  | some f => simp only [Option.map_some, hperm.mem_iff]

/-- Two runs of graph construction that realize different orders of the
shared dynamic-entry-point collector (any two interleavings of the per-file
appends are permutations of each other) build identical graphs. -/
theorem cloneLinkerGraphWith_perm (inputFiles : List InputFile) (reach : List Nat)
    (eps : List EntryPoint) (codeSplitting : Bool) {dyn1 dyn2 : List Nat}
    (hperm : dyn1.Perm dyn2) (hb : ∀ x ∈ dyn1, x < inputFiles.length) :
    CloneLinkerGraphWith inputFiles reach eps codeSplitting dyn1 =
      CloneLinkerGraphWith inputFiles reach eps codeSplitting dyn2 := by
  have hlen : (cloneFilesPhase codeSplitting inputFiles
      (markEntryPoints (List.replicate inputFiles.length defaultLinkerFile) eps)
      reach).length = inputFiles.length := by
    rw [length_cloneFilesPhase, length_markEntryPoints, List.length_replicate]
  have hb' : ∀ x ∈ dyn1, x < (cloneFilesPhase codeSplitting inputFiles
      (markEntryPoints (List.replicate inputFiles.length defaultLinkerFile) eps)
      reach).length := by
    rw [hlen]
    exact hb
  have hsel := selectPromoted_perm _ hperm hb'
  have hsorted : List.insertionSort (· ≤ ·)
        ((selectPromoted _ dyn1).map fun x => (buildStable reach inputFiles.length).getD x 0) =
      List.insertionSort (· ≤ ·)
        ((selectPromoted _ dyn2).map fun x => (buildStable reach inputFiles.length).getD x 0) :=
    insertionSort_eq_of_perm (hsel.map _)
  have hfiles := promoteFiles_congr_perm
    (cloneFilesPhase codeSplitting inputFiles
      (markEntryPoints (List.replicate inputFiles.length defaultLinkerFile) eps) reach) hperm
  simp only [CloneLinkerGraphWith, promoteDynamic_eq]
  rw [hfiles, hsorted]

/-! ### Component characterization of the constructed graph -/

theorem cloneWith_entryPoints (inputFiles : List InputFile) (reach : List Nat)
    (eps : List EntryPoint) (cs : Bool) (dyn : List Nat) :
    (CloneLinkerGraphWith inputFiles reach eps cs dyn).entryPoints =
      finalEntryPoints inputFiles reach eps cs dyn := by
  simp only [CloneLinkerGraphWith, promoteDynamic_eq, finalEntryPoints, sortedPromotedStables,
    clonedFiles, initialFiles]

theorem cloneWith_Files (inputFiles : List InputFile) (reach : List Nat)
    (eps : List EntryPoint) (cs : Bool) (dyn : List Nat) :
    (CloneLinkerGraphWith inputFiles reach eps cs dyn).Files =
      allocBits (promoteFiles (clonedFiles inputFiles reach eps cs) dyn) reach
        (finalEntryPoints inputFiles reach eps cs dyn).length := by
  simp only [CloneLinkerGraphWith, promoteDynamic_eq, finalPass_def, finalEntryPoints,
    sortedPromotedStables, clonedFiles, initialFiles]

theorem cloneWith_SymbolsForSource (inputFiles : List InputFile) (reach : List Nat)
    (eps : List EntryPoint) (cs : Bool) (dyn : List Nat) :
    (CloneLinkerGraphWith inputFiles reach eps cs dyn).SymbolsForSource =
      buildSymbols inputFiles reach inputFiles.length := by
  simp only [CloneLinkerGraphWith]

theorem cloneWith_StableSourceIndices (inputFiles : List InputFile) (reach : List Nat)
    (eps : List EntryPoint) (cs : Bool) (dyn : List Nat) :
    (CloneLinkerGraphWith inputFiles reach eps cs dyn).StableSourceIndices =
      buildStable reach inputFiles.length := by
  simp only [CloneLinkerGraphWith]

theorem cloneWith_TSEnums (inputFiles : List InputFile) (reach : List Nat)
    (eps : List EntryPoint) (cs : Bool) (dyn : List Nat) :
    (CloneLinkerGraphWith inputFiles reach eps cs dyn).TSEnums =
      mergeTS (promoteFiles (clonedFiles inputFiles reach eps cs) dyn) reach none := by
  simp only [CloneLinkerGraphWith, promoteDynamic_eq, finalPass_def, clonedFiles, initialFiles]

theorem cloneWith_ConstValues (inputFiles : List InputFile) (reach : List Nat)
    (eps : List EntryPoint) (cs : Bool) (dyn : List Nat) :
    (CloneLinkerGraphWith inputFiles reach eps cs dyn).ConstValues =
      mergeCV (promoteFiles (clonedFiles inputFiles reach eps cs) dyn) reach none := by
  simp only [CloneLinkerGraphWith, promoteDynamic_eq, finalPass_def, clonedFiles, initialFiles]

/-- The complete contents of file slot `i` of the constructed graph. -/
theorem cloneWith_slot (inputFiles : List InputFile) (reach : List Nat)
    (eps : List EntryPoint) (cs : Bool) (dyn : List Nat) {i : Nat}
    (hi : i < inputFiles.length) :
    (CloneLinkerGraphWith inputFiles reach eps cs dyn).Files.getD i defaultLinkerFile =
      { EntryBits :=
          if i ∈ reach then ⟨(finalEntryPoints inputFiles reach eps cs dyn).length⟩ else ⟨0⟩
        InputFile :=
          if i ∈ reach then cloneInputFile cs i (inputFiles.getD i ⟨FileRepr.empty⟩)
          else ⟨FileRepr.empty⟩
        DistanceFromEntryPoint := if i ∈ reach then distanceInfinity else 0
        EntryPointChunkIndex := 0
        entryPointKind :=
          if i ∈ eps.map (·.SourceIndex) then EntryPointKind.userSpecified
          else if i ∈ dyn then EntryPointKind.dynamicImport
          else EntryPointKind.none
        IsLive := false } := by
  rw [List.getD_eq_getElem?_getD, cloneWith_Files]
  rw [getElem?_allocBits, getElem?_promoteFiles]
  rw [show clonedFiles inputFiles reach eps cs =
      cloneFilesPhase cs inputFiles (initialFiles inputFiles eps) reach from rfl]
  rw [getElem?_cloneFilesPhase]
  rw [show initialFiles inputFiles eps =
      markEntryPoints (List.replicate inputFiles.length defaultLinkerFile) eps from rfl]
  rw [getElem?_markEntryPoints]
  rw [List.getElem?_replicate, if_pos hi]
  by_cases hu : i ∈ eps.map (·.SourceIndex) <;>
    by_cases hr : i ∈ reach <;>
      by_cases hd : i ∈ dyn <;>
        simp [hu, hr, hd, defaultLinkerFile]

theorem promotedEntryPoints_map_shape (reach : List Nat) (ss : List Nat) :
    (promotedEntryPoints reach ss).map
        (fun ep => (ep.OutputPath, ep.OutputPathWasAutoGenerated)) =
      List.replicate ss.length ("", false) := by
  induction ss with
  | nil => rfl
  | cons x ss ih =>
    simp only [promotedEntryPoints, List.map_cons, List.length_cons, List.replicate] at ih ⊢
    rw [ih]

theorem length_promotedEntryPoints (reach : List Nat) (ss : List Nat) :
    (promotedEntryPoints reach ss).length = ss.length := by
  simp [promotedEntryPoints]

/-! ### The claims -/

/-- Claim C10: every entry point appended to the entry-point list by
dynamic-import promotion is constructed with only its source index set: its
output path is the empty string and its auto-generated flag is false, while
the user-specified prefix of the list carries exactly what the caller
supplied. -/
theorem c10_promoted_entries_bare (inputFiles : List InputFile) (reach : List Nat)
    (eps : List EntryPoint) (cs : Bool) :
    (CloneLinkerGraph inputFiles reach eps cs).entryPoints.take eps.length = eps ∧
      ((CloneLinkerGraph inputFiles reach eps cs).entryPoints.drop eps.length).map
          (fun ep => (ep.OutputPath, ep.OutputPathWasAutoGenerated)) =
        List.replicate
          ((CloneLinkerGraph inputFiles reach eps cs).entryPoints.length - eps.length)
          ("", false) := by
  simp only [CloneLinkerGraph]
  rw [cloneWith_entryPoints]
  simp only [finalEntryPoints]
  refine ⟨?_, ?_⟩
  · rw [List.take_left]
  · rw [List.drop_left, List.length_append, length_promotedEntryPoints]
    rw [promotedEntryPoints_map_shape]
    congr 1
    omega

/-- Claim C9: after CloneLinkerGraph, for every reachable JS-family file,
the global symbol table's per-file slot holds a copy of that file's symbol
list, and the graph file's own symbol-list pointer is cleared to nil. -/
theorem c9_symbols_moved (inputFiles : List InputFile) (reach : List Nat)
    (eps : List EntryPoint) (cs : Bool) {i : Nat} {repr : JSRepr}
    (hmem : i ∈ reach) (hi : i < inputFiles.length)
    (hjs : (inputFiles.getD i ⟨FileRepr.empty⟩).Repr = FileRepr.js repr) :
    (CloneLinkerGraph inputFiles reach eps cs).SymbolsForSource.getD i none =
        some (repr.AST.Symbols.getD []) ∧
      symbolsPointerOf (CloneLinkerGraph inputFiles reach eps cs) i = some none := by
  constructor
  · rw [List.getD_eq_getElem?_getD]
    simp only [CloneLinkerGraph]
    rw [cloneWith_SymbolsForSource]
    rw [getElem?_buildSymbols inputFiles reach inputFiles.length hmem hi ?_]
    · rfl
    · simp only [fileSymbolsOf, hjs]
  · simp only [symbolsPointerOf, jsReprOf, CloneLinkerGraph]
    rw [cloneWith_slot inputFiles reach eps cs _ hi]
    simp only [if_pos hmem]
    simp only [cloneInputFile, hjs]
    cases hrepr : (inputFiles.getD i ⟨FileRepr.empty⟩).Repr with
    | js r =>
      rw [hrepr] at hjs
      cases hjs
      rfl
    | css r => rw [hrepr] at hjs; cases hjs
    | empty => rw [hrepr] at hjs; cases hjs

theorem mem_dynamicImportCandidates (cs : Bool) (inputFiles : List InputFile)
    (reach : List Nat) {si y : Nat} (hsi : si ∈ reach)
    (hy : y ∈ dynamicCandidatesOf cs (inputFiles.getD si ⟨FileRepr.empty⟩)) :
    y ∈ dynamicImportCandidates cs inputFiles reach := by
  rw [dynamicImportCandidates, List.mem_flatten]
  exact ⟨dynamicCandidatesOf cs (inputFiles.getD si ⟨FileRepr.empty⟩),
    List.mem_map_of_mem _ hsi, hy⟩

theorem kindAt_clonedFiles (inputFiles : List InputFile) (reach : List Nat)
    (eps : List EntryPoint) (cs : Bool) {y : Nat} (hy : y < inputFiles.length) :
    kindAt (clonedFiles inputFiles reach eps cs) y =
      if y ∈ eps.map (·.SourceIndex) then EntryPointKind.userSpecified
      else EntryPointKind.none := by
  rw [kindAt, List.getD_eq_getElem?_getD]
  rw [show clonedFiles inputFiles reach eps cs =
      cloneFilesPhase cs inputFiles (initialFiles inputFiles eps) reach from rfl]
  rw [getElem?_cloneFilesPhase]
  rw [show initialFiles inputFiles eps =
      markEntryPoints (List.replicate inputFiles.length defaultLinkerFile) eps from rfl]
  rw [getElem?_markEntryPoints]
  rw [List.getElem?_replicate, if_pos hy]
  by_cases hu : y ∈ eps.map (·.SourceIndex) <;>
    by_cases hr : y ∈ reach <;>
      simp [hu, hr, defaultLinkerFile]

/-- Claim C6 (amended): with code splitting enabled, every dynamic-import
record with a valid resolved target in a reachable JS-family file has
its assertions cleared in the graph's view of the file; with code
splitting disabled, every reachable file's import-record list is unchanged.
(The un-amended claim quantified over all reachable files; a CSS-family
file's records are cloned without assertion stripping.) -/
theorem c6_assertion_stripping (inputFiles : List InputFile) (reach : List Nat)
    (eps : List EntryPoint) (cs : Bool) {i : Nat}
    (hi : i < inputFiles.length) (hmem : i ∈ reach) :
    (cs = true →
      ∀ repr, (inputFiles.getD i ⟨FileRepr.empty⟩).Repr = FileRepr.js repr →
        ∀ r ∈ recordsOf (CloneLinkerGraph inputFiles reach eps cs) i,
          r.Kind = ImportKind.Dynamic → r.SourceIndex.isSome → r.Assertions = none) ∧
    (cs = false →
      recordsOf (CloneLinkerGraph inputFiles reach eps cs) i =
        recordsOfFile (inputFiles.getD i ⟨FileRepr.empty⟩)) := by
  have hrec : recordsOf (CloneLinkerGraph inputFiles reach eps cs) i =
      recordsOfFile (cloneInputFile cs i (inputFiles.getD i ⟨FileRepr.empty⟩)) := by
    simp only [recordsOf, CloneLinkerGraph]
    rw [cloneWith_slot inputFiles reach eps cs _ hi]
    simp only [if_pos hmem]
  constructor
  · rintro rfl repr hjs r hr hkind hvalid
    rw [hrec] at hr
    simp only [cloneInputFile, hjs, recordsOfFile, cloneJSRepr] at hr
    obtain ⟨r0, hr0, rfl⟩ := List.mem_map.mp hr
    by_cases hcond : r0.SourceIndex.isSome = true ∧ r0.Kind = ImportKind.Dynamic
    · simp [stripRecord, hcond]
    · have hid : stripRecord true r0 = r0 := by
        simp only [stripRecord]
        rw [if_neg]
        intro h
        exact hcond ⟨h.2.1, h.2.2⟩
      rw [hid] at hkind hvalid
      exact absurd ⟨hvalid, hkind⟩ hcond
  · rintro rfl
    rw [hrec]
    cases hrepr : (inputFiles.getD i ⟨FileRepr.empty⟩).Repr with
    | js repr =>
      simp only [cloneInputFile, hrepr, recordsOfFile, cloneJSRepr]
      have hstrip : ∀ r : ImportRecord, stripRecord false r = r := by
        intro r
        simp [stripRecord]
      rw [List.map_congr_left fun r _ => hstrip r]
      exact List.map_id _
    | css repr => simp only [cloneInputFile, hrepr, recordsOfFile]
    | empty => simp only [cloneInputFile, hrepr, recordsOfFile]

theorem length_clonedFiles (inputFiles : List InputFile) (reach : List Nat)
    (eps : List EntryPoint) (cs : Bool) :
    (clonedFiles inputFiles reach eps cs).length = inputFiles.length := by
  rw [show clonedFiles inputFiles reach eps cs =
      cloneFilesPhase cs inputFiles (initialFiles inputFiles eps) reach from rfl]
  rw [length_cloneFilesPhase]
  rw [show initialFiles inputFiles eps =
      markEntryPoints (List.replicate inputFiles.length defaultLinkerFile) eps from rfl]
  rw [length_markEntryPoints, List.length_replicate]

theorem map_sourceIndex_promotedEntryPoints (reach : List Nat) (ss : List Nat) :
    (promotedEntryPoints reach ss).map (·.SourceIndex) = ss.map fun s => reach.getD s 0 := by
  simp [promotedEntryPoints, List.map_map]

theorem promoted_count (inputFiles : List InputFile) (reach : List Nat)
    (eps : List EntryPoint) (cs : Bool) (dyn : List Nat) (X : Nat)
    (hnd : reach.Nodup) (hbound : ∀ x ∈ reach, x < inputFiles.length)
    (hdynr : ∀ x ∈ dyn, x ∈ reach) (hX : X < inputFiles.length) :
    ((promotedEntryPoints reach (sortedPromotedStables inputFiles reach eps cs dyn)).map
        (·.SourceIndex)).count X =
      if X ∈ dyn ∧ X ∉ eps.map (·.SourceIndex) then 1 else 0 := by
  have hb' : ∀ x ∈ dyn, x < (clonedFiles inputFiles reach eps cs).length := by
    rw [length_clonedFiles]
    exact fun x hx => hbound x (hdynr x hx)
  rw [map_sourceIndex_promotedEntryPoints]
  rw [show sortedPromotedStables inputFiles reach eps cs dyn =
      List.insertionSort (· ≤ ·)
        ((selectPromoted (clonedFiles inputFiles reach eps cs) dyn).map fun x =>
          (buildStable reach inputFiles.length).getD x 0) from rfl]
  rw [((List.perm_insertionSort (· ≤ ·) _).map fun s => reach.getD s 0).count_eq X]
  rw [List.map_map]
  have hrt : ∀ y ∈ selectPromoted (clonedFiles inputFiles reach eps cs) dyn,
      ((fun s => reach.getD s 0) ∘ fun x => (buildStable reach inputFiles.length).getD x 0) y
        = y := by
    intro y hy
    have hyd := ((mem_selectPromoted dyn _ hb' y).mp hy).1
    exact buildStable_roundtrip reach inputFiles.length hnd hbound (hdynr y hyd)
  rw [List.map_congr_left hrt, List.map_id']
  by_cases hcase : X ∈ dyn ∧ X ∉ eps.map (·.SourceIndex)
  · rw [if_pos hcase]
    apply List.count_eq_one_of_mem (nodup_selectPromoted dyn _ hb')
    rw [mem_selectPromoted dyn _ hb' X, kindAt_clonedFiles inputFiles reach eps cs hX]
    rw [if_neg hcase.2]
    exact ⟨hcase.1, rfl⟩
  · rw [if_neg hcase]
    rw [List.count_eq_zero]
    rw [mem_selectPromoted dyn _ hb' X, kindAt_clonedFiles inputFiles reach eps cs hX]
    intro hinS
    by_cases hu : X ∈ eps.map (·.SourceIndex)
    · rw [if_pos hu] at hinS
      cases hinS.2
    · rw [if_neg hu] at hinS
      exact hcase ⟨hinS.1, hu⟩

/-- Claim C2: with code splitting enabled, a file X dynamically imported by
two distinct reachable files appears exactly once in the final entry-point
list and its kind is dynamic-import; if X was already a user-specified
initial entry point, it is not appended again and its kind remains
user-specified. -/
theorem c2_dynamic_entry_dedup (inputFiles : List InputFile) (reach : List Nat)
    (eps : List EntryPoint) (X f1 f2 : Nat)
    (hnd : reach.Nodup)
    (hbound : ∀ x ∈ reach, x < inputFiles.length)
    (hclosed : ∀ x ∈ dynamicImportCandidates true inputFiles reach, x ∈ reach)
    (hX : X ∈ reach)
    (hne : f1 ≠ f2) (hf1 : f1 ∈ reach) (hf2 : f2 ∈ reach)
    (hd1 : X ∈ dynamicCandidatesOf true (inputFiles.getD f1 ⟨FileRepr.empty⟩))
    (hd2 : X ∈ dynamicCandidatesOf true (inputFiles.getD f2 ⟨FileRepr.empty⟩)) :
    (X ∉ eps.map (·.SourceIndex) →
      ((CloneLinkerGraph inputFiles reach eps true).entryPoints.map (·.SourceIndex)).count X
          = 1 ∧
        kindOf (CloneLinkerGraph inputFiles reach eps true) X = EntryPointKind.dynamicImport) ∧
    ((eps.map (·.SourceIndex)).count X = 1 →
      ((CloneLinkerGraph inputFiles reach eps true).entryPoints.map (·.SourceIndex)).count X
          = 1 ∧
        kindOf (CloneLinkerGraph inputFiles reach eps true) X = EntryPointKind.userSpecified) := by
  have hXdyn : X ∈ dynamicImportCandidates true inputFiles reach :=
    mem_dynamicImportCandidates true inputFiles reach hf1 hd1
  have hXn : X < inputFiles.length := hbound X hX
  have hcount : ((CloneLinkerGraph inputFiles reach eps true).entryPoints.map
      (·.SourceIndex)).count X =
      (eps.map (·.SourceIndex)).count X +
        (if X ∈ dynamicImportCandidates true inputFiles reach ∧
            X ∉ eps.map (·.SourceIndex) then 1 else 0) := by
    simp only [CloneLinkerGraph]
    rw [cloneWith_entryPoints]
    rw [show finalEntryPoints inputFiles reach eps true
        (dynamicImportCandidates true inputFiles reach) =
      eps ++ promotedEntryPoints reach (sortedPromotedStables inputFiles reach eps true
        (dynamicImportCandidates true inputFiles reach)) from rfl]
    rw [List.map_append, List.count_append]
    rw [promoted_count inputFiles reach eps true _ X hnd hbound hclosed hXn]
  have hkind : kindOf (CloneLinkerGraph inputFiles reach eps true) X =
      (if X ∈ eps.map (·.SourceIndex) then EntryPointKind.userSpecified
        else if X ∈ dynamicImportCandidates true inputFiles reach then
          EntryPointKind.dynamicImport
        else EntryPointKind.none) := by
    simp only [kindOf, kindAt, CloneLinkerGraph]
    rw [cloneWith_slot inputFiles reach eps true _ hXn]
  constructor
  · intro hA
    constructor
    · rw [hcount, if_pos ⟨hXdyn, hA⟩, List.count_eq_zero.mpr hA]
    · rw [hkind, if_neg hA, if_pos hXdyn]
  · intro hB
    have hmemB : X ∈ eps.map (·.SourceIndex) := by
      by_contra hnm
      rw [List.count_eq_zero.mpr hnm] at hB
      cases hB
    constructor
    · rw [hcount, hB, if_neg]
      intro hc
      exact hc.2 hmemB
    · rw [hkind, if_pos hmemB]

/-! ### Lemmas about the graph mutators -/

theorem length_Files_setJSRepr (g : LinkerGraph) (i : Nat) (repr : JSRepr) :
    (setJSRepr g i repr).Files.length = g.Files.length := by
  simp [setJSRepr]

theorem jsReprOf_setJSRepr_self {g : LinkerGraph} {i : Nat} (repr : JSRepr)
    (h : i < g.Files.length) : jsReprOf (setJSRepr g i repr) i = some repr := by
  simp only [jsReprOf, setJSRepr]
  rw [getD_set_self _ h]

theorem jsReprOf_setJSRepr_ne {g : LinkerGraph} {i j : Nat} (repr : JSRepr)
    (h : i ≠ j) : jsReprOf (setJSRepr g i repr) j = jsReprOf g j := by
  simp only [jsReprOf, setJSRepr]
  rw [getD_set_ne _ h]

theorem partsOf_eq {g : LinkerGraph} {s : Nat} {repr : JSRepr}
    (h : jsReprOf g s = some repr) : partsOf g s = repr.AST.Parts := by
  simp [partsOf, h]

theorem importsToBindOf_eq {g : LinkerGraph} {s : Nat} {repr : JSRepr}
    (h : jsReprOf g s = some repr) : importsToBindOf g s = repr.Meta.ImportsToBind := by
  simp [importsToBindOf, h]

theorem declaringParts_eq {g : LinkerGraph} {s : Nat} {repr : JSRepr}
    (h : jsReprOf g s = some repr) (ref : Ref) :
    declaringParts g s ref = TopLevelSymbolToParts repr ref := by
  simp [declaringParts, h]

theorem overlayEntry_eq {g : LinkerGraph} {s : Nat} {repr : JSRepr}
    (h : jsReprOf g s = some repr) (ref : Ref) :
    overlayEntry g s ref = alookup (repr.Meta.TopLevelSymbolToPartsOverlay.getD []) ref := by
  simp [overlayEntry, h]

theorem parserTableOf_eq {g : LinkerGraph} {s : Nat} {repr : JSRepr}
    (h : jsReprOf g s = some repr) :
    parserTableOf g s = repr.AST.TopLevelSymbolToPartsFromParser := by
  simp [parserTableOf, h]

/-- Inversion and postcondition of GenerateSymbolImportAndUse for a nonzero
use count: the use-count estimate is incremented (the entry created at the
prior estimate zero if absent), one dependency edge is appended per
declaring part of the symbol in the import-source file, and an import
binding is recorded exactly when the import source differs from the using
file. -/
theorem Generate_spec {g : LinkerGraph} {s p : Nat} {r : Ref} {n imp : Nat}
    {g' : LinkerGraph} (hn : n ≠ 0)
    (h : GenerateSymbolImportAndUse g s p r n imp = some g') :
    countOf g' s p r = some ((countOf g s p r).getD 0 + n) ∧
    depsOf g' s p = depsOf g s p ++ (declaringParts g imp r).map
      (fun pi => { SourceIndex := imp, PartIndex := pi }) ∧
    importsToBindOf g' s =
      (if imp ≠ s then aset (importsToBindOf g s) r { SourceIndex := imp, Ref := r }
        else importsToBindOf g s) := by
  rw [GenerateSymbolImportAndUse, if_neg hn] at h
  cases hfile : g.Files.get? s with
  | none => rw [hfile] at h; cases h
  | some file =>
  simp only [hfile] at h
  cases hrepr : jsReprOf g s with
  | none => rw [hrepr] at h; cases h
  | some repr =>
  simp only [hrepr] at h
  cases hpart : repr.AST.Parts.get? p with
  | none => rw [hpart] at h; cases h
  | some part =>
  simp only [hpart] at h
  cases huses : part.SymbolUses with
  | none => rw [huses] at h; cases h
  | some uses =>
  simp only [huses] at h
  have hs : s < g.Files.length := by
    by_contra hge
    rw [List.get?_eq_getElem?, List.getElem?_eq_none_iff.mpr (Nat.le_of_not_lt hge)] at hfile
    cases hfile
  have hp : p < repr.AST.Parts.length := by
    by_contra hge
    rw [List.get?_eq_getElem?, List.getElem?_eq_none_iff.mpr (Nat.le_of_not_lt hge)] at hpart
    cases hpart
  have hpartv : repr.AST.Parts.getD p defaultPart = part := by
    rw [List.getD_eq_getElem?_getD, ← List.get?_eq_getElem?, hpart]
    rfl
  set part1 : Part :=
    { part with
      SymbolUses := some (aset uses r ⟨((alookup uses r).getD ⟨0⟩).CountEstimate + n⟩) }
    with hpart1
  set ast1 : JSAST :=
    { repr.AST with
      Parts := repr.AST.Parts.set p part1
      UsesExportsRef := if r = repr.AST.ExportsRef then true else repr.AST.UsesExportsRef
      UsesModuleRef := if r = repr.AST.ModuleRef then true else repr.AST.UsesModuleRef }
    with hast1
  set meta1 : JSReprMeta :=
    (if imp ≠ s then
      { repr.Meta with
        ImportsToBind := aset repr.Meta.ImportsToBind r { SourceIndex := imp, Ref := r } }
      else repr.Meta) with hmeta1
  have hg1repr : jsReprOf (setJSRepr g s ⟨ast1, meta1⟩) s = some ⟨ast1, meta1⟩ :=
    jsReprOf_setJSRepr_self _ hs
  cases htarget : jsReprOf (setJSRepr g s ⟨ast1, meta1⟩) imp with
  | none => rw [htarget] at h; cases h
  | some targetRepr =>
  simp only [htarget, hg1repr] at h
  have hpart1get : ast1.Parts.get? p = some part1 := by
    rw [List.get?_eq_getElem?]
    exact List.getElem?_set_self (by simpa using hp)
  simp only [hpart1get] at h
  have hg' : g' = setJSRepr (setJSRepr g s ⟨ast1, meta1⟩) s
      { AST :=
          { ast1 with
            Parts := ast1.Parts.set p
              { part1 with
                Dependencies := part1.Dependencies ++
                  (TopLevelSymbolToParts targetRepr r).map fun pi =>
                    { SourceIndex := imp, PartIndex := pi } } }
        Meta := meta1 } := by
    cases h
    rfl
  have htargetdecl : TopLevelSymbolToParts targetRepr r = declaringParts g imp r := by
    by_cases himp : imp = s
    · subst himp
      rw [hg1repr] at htarget
      cases htarget
      rw [declaringParts_eq hrepr]
      simp only [TopLevelSymbolToParts, hast1, hmeta1, if_neg (by simp : ¬imp ≠ imp)]
    · rw [jsReprOf_setJSRepr_ne _ (fun he => himp he.symm)] at htarget
      rw [declaringParts, htarget]
  have hg'repr : jsReprOf g' s = some
      { AST :=
          { ast1 with
            Parts := ast1.Parts.set p
              { part1 with
                Dependencies := part1.Dependencies ++
                  (TopLevelSymbolToParts targetRepr r).map fun pi =>
                    { SourceIndex := imp, PartIndex := pi } } }
        Meta := meta1 } := by
    rw [hg']
    exact jsReprOf_setJSRepr_self _ (by rw [length_Files_setJSRepr]; exact hs)
  have hpartsg' : partsOf g' s = repr.AST.Parts.set p
      { part1 with
        Dependencies := part1.Dependencies ++
          (TopLevelSymbolToParts targetRepr r).map fun pi =>
            { SourceIndex := imp, PartIndex := pi } } := by
    rw [partsOf_eq hg'repr]
    show (repr.AST.Parts.set p part1).set p _ = _
    rw [List.set_set]
  have hpartAtg' : partAt g' s p =
      { part1 with
        Dependencies := part1.Dependencies ++
          (TopLevelSymbolToParts targetRepr r).map fun pi =>
            { SourceIndex := imp, PartIndex := pi } } := by
    rw [partAt, hpartsg']
    exact getD_set_self _ (by simpa using hp) _ _
  have hpartAtg : partAt g s p = part := by
    rw [partAt, partsOf_eq hrepr]
    exact hpartv
  refine ⟨?_, ?_, ?_⟩
  · rw [countOf, hpartAtg']
    show (alookup (aset uses r _) r).map (·.CountEstimate) = _
    rw [alookup_aset_self]
    rw [countOf, hpartAtg, huses]
    cases halk : alookup uses r <;> simp [halk]
  · rw [depsOf, hpartAtg', depsOf, hpartAtg, htargetdecl]
  · rw [importsToBindOf_eq hg'repr, importsToBindOf_eq hrepr]
    by_cases himp : imp ≠ s <;> simp [himp, hmeta1]

/-- Claim C8: recordSymbolUse accumulates use counts additively and is a
no-op at zero: a call with use count 0 returns the graph unchanged, and two
successive successful calls with positive counts n and m for the same
(file, part, symbol) leave the symbol's use-count estimate equal to its
prior value (zero when absent, creating the entry) plus n plus m. -/
theorem c8_use_count_accumulation (g : LinkerGraph) (s p : Nat) (r : Ref) (imp : Nat)
    (n m : Nat) (g1 g2 : LinkerGraph) :
    (GenerateSymbolImportAndUse g s p r 0 imp = some g) ∧
    (0 < n → 0 < m →
      GenerateSymbolImportAndUse g s p r n imp = some g1 →
      GenerateSymbolImportAndUse g1 s p r m imp = some g2 →
      countOf g2 s p r = some ((countOf g s p r).getD 0 + (n + m))) := by
  constructor
  · rw [GenerateSymbolImportAndUse, if_pos rfl]
  · intro hn hm h1 h2
    have s1 := (Generate_spec hn.ne' h1).1
    have s2 := (Generate_spec hm.ne' h2).1
    rw [s1] at s2
    rw [s2]
    simp only [Option.getD_some]
    congr 1
    omega

/-- Claim C3: a successful recordSymbolUse with positive use count appends
exactly one dependency edge to the using part for each part of the symbol's
owning file that declares the symbol, per the declaring-parts lookup. -/
theorem c3_dependency_edges (g : LinkerGraph) (s p : Nat) (r : Ref) (n imp : Nat)
    (g' : LinkerGraph) (hn : 0 < n) (howner : r.SourceIndex = imp)
    (h : GenerateSymbolImportAndUse g s p r n imp = some g') :
    depsOf g' s p = depsOf g s p ++ (declaringParts g r.SourceIndex r).map
      (fun pi => { SourceIndex := r.SourceIndex, PartIndex := pi }) ∧
    (depsOf g' s p).length =
      (depsOf g s p).length + (declaringParts g r.SourceIndex r).length := by
  subst howner
  have hd := (Generate_spec hn.ne' h).2.1
  refine ⟨hd, ?_⟩
  rw [hd, List.length_append, List.length_map]

/-- Claim C4: a successful recordSymbolUse with positive use count records
an import binding mapping the used symbol to its owning file exactly when
the symbol is owned by a different file than the one recording the use;
when the symbol is owned by the using file itself, the import-binding
metadata is left unchanged. -/
theorem c4_import_binding (g : LinkerGraph) (s p : Nat) (r : Ref) (n imp : Nat)
    (g' : LinkerGraph) (hn : 0 < n) (howner : r.SourceIndex = imp)
    (h : GenerateSymbolImportAndUse g s p r n imp = some g') :
    (r.SourceIndex ≠ s →
      alookup (importsToBindOf g' s) r = some { SourceIndex := r.SourceIndex, Ref := r }) ∧
    (r.SourceIndex = s → importsToBindOf g' s = importsToBindOf g s) := by
  subst howner
  have hb := (Generate_spec hn.ne' h).2.2
  constructor
  · intro hne
    rw [hb, if_pos hne, alookup_aset_self]
  · intro heq
    rw [hb, if_neg (by simpa using heq)]

theorem addPartOverlay_cons (meta : JSReprMeta) (parser : List (Ref × List Nat))
    (ds : DeclaredSymbol) (decls : List DeclaredSymbol) (partIndex : Nat) :
    addPartOverlay meta parser (ds :: decls) partIndex =
      addPartOverlay
        (if ds.IsTopLevel then
          { meta with
            TopLevelSymbolToPartsOverlay :=
              some (aset (meta.TopLevelSymbolToPartsOverlay.getD []) ds.Ref
                ((match alookup (meta.TopLevelSymbolToPartsOverlay.getD []) ds.Ref with
                  | some indices => indices
                  | none => (alookup parser ds.Ref).getD []) ++ [partIndex])) }
        else meta)
        parser decls partIndex := by
  rw [addPartOverlay, List.foldl_cons, addPartOverlay]

theorem alookup_addPartOverlay (parser : List (Ref × List Nat)) (partIndex : Nat) :
    ∀ (decls : List DeclaredSymbol) (meta : JSReprMeta) (ref : Ref),
      (decls.map (·.Ref)).Nodup →
      alookup
          ((addPartOverlay meta parser decls partIndex).TopLevelSymbolToPartsOverlay.getD [])
          ref =
        if decls.any (fun ds => ds.Ref = ref ∧ ds.IsTopLevel) then
          some ((match alookup (meta.TopLevelSymbolToPartsOverlay.getD []) ref with
                 | some v => v
                 | none => (alookup parser ref).getD []) ++ [partIndex])
        else alookup (meta.TopLevelSymbolToPartsOverlay.getD []) ref := by
  intro decls
  induction decls with
  | nil => intro meta ref _; simp [addPartOverlay]
  | cons ds decls ih =>
    intro meta ref hnd
    rw [List.map_cons, List.nodup_cons] at hnd
    rw [addPartOverlay_cons]
    by_cases htop : ds.IsTopLevel = true
    case neg =>
      rw [if_neg htop, ih _ ref hnd.2]
      simp [List.any_cons, htop]
    case pos =>
      rw [if_pos htop]
      by_cases href : ds.Ref = ref
      · subst href
        rw [ih _ ds.Ref hnd.2]
        have hany : decls.any (fun d => d.Ref = ds.Ref ∧ d.IsTopLevel) = false := by
          rw [List.any_eq_false]
          intro d hd
          have hne : d.Ref ≠ ds.Ref :=
            fun he => hnd.1 (he ▸ List.mem_map_of_mem (·.Ref) hd)
          simp [hne]
        rw [hany]
        simp only [Bool.false_eq_true, if_false, Option.getD_some, alookup_aset_self]
        have hcond : ((ds :: decls).any fun d => d.Ref = ds.Ref ∧ d.IsTopLevel) = true := by
          simp [List.any_cons, htop]
        rw [if_pos hcond]
      · rw [ih _ ref hnd.2]
        have hlk : alookup
            (({ meta with
              TopLevelSymbolToPartsOverlay :=
                some (aset (meta.TopLevelSymbolToPartsOverlay.getD []) ds.Ref
                  ((match alookup (meta.TopLevelSymbolToPartsOverlay.getD []) ds.Ref with
                    | some indices => indices
                    | none => (alookup parser ds.Ref).getD []) ++ [partIndex])) }
              : JSReprMeta).TopLevelSymbolToPartsOverlay.getD []) ref =
            alookup (meta.TopLevelSymbolToPartsOverlay.getD []) ref := by
          simp only [Option.getD_some]
          exact alookup_aset_ne _ href _
        rw [hlk]
        have hhead : decide (ds.Ref = ref ∧ ds.IsTopLevel = true) = false := by
          simp [href]
        simp only [List.any_cons, hhead, Bool.false_or]

theorem declIdxs_cons (base : Nat) (p : Part) (ps : List Part) (ref : Ref) :
    declIdxs base (p :: ps) ref =
      (if declaresTop ref p then [base] else []) ++ declIdxs (base + 1) ps ref := by
  rw [declIdxs, List.enumFrom_cons, List.filterMap_cons]
  by_cases h : declaresTop ref p
  · rw [h]
    rfl
  · rw [show declaresTop ref p = false by simpa using h]
    rfl

/-- Inversion and postcondition of one AddPartToFile call. -/
theorem AddPartToFile_spec {g : LinkerGraph} {s : Nat} {part : Part}
    {g' : LinkerGraph} {idx : Nat} (h : AddPartToFile g s part = some (g', idx)) :
    idx = (partsOf g s).length ∧
    partsOf g' s =
      partsOf g s ++ [{ part with SymbolUses := some (part.SymbolUses.getD []) }] ∧
    parserTableOf g' s = parserTableOf g s ∧
    g'.Files.length = g.Files.length ∧
    (∀ ref, (part.DeclaredSymbols.map (·.Ref)).Nodup →
      overlayEntry g' s ref =
        if declaresTop ref part then
          some ((match overlayEntry g s ref with
                 | some v => v
                 | none => parserPartsOf g s ref) ++ [idx])
        else overlayEntry g s ref) := by
  rw [AddPartToFile] at h
  cases hfile : g.Files.get? s with
  | none => rw [hfile] at h; cases h
  | some file =>
  simp only [hfile] at h
  cases hrepr : jsReprOf g s with
  | none => rw [hrepr] at h; cases h
  | some repr =>
  simp only [hrepr] at h
  have hs : s < g.Files.length := by
    by_contra hge
    rw [List.get?_eq_getElem?, List.getElem?_eq_none_iff.mpr (Nat.le_of_not_lt hge)] at hfile
    cases hfile
  have hidx : idx = repr.AST.Parts.length := by
    cases h
    rfl
  have hg' : g' = setJSRepr g s
      { AST := { repr.AST with
          Parts := repr.AST.Parts ++
            [{ part with SymbolUses := some (part.SymbolUses.getD []) }] }
        Meta := addPartOverlay repr.Meta repr.AST.TopLevelSymbolToPartsFromParser
          part.DeclaredSymbols repr.AST.Parts.length } := by
    cases h
    rfl
  have hg'repr : jsReprOf g' s = some
      { AST := { repr.AST with
          Parts := repr.AST.Parts ++
            [{ part with SymbolUses := some (part.SymbolUses.getD []) }] }
        Meta := addPartOverlay repr.Meta repr.AST.TopLevelSymbolToPartsFromParser
          part.DeclaredSymbols repr.AST.Parts.length } := by
    rw [hg']
    exact jsReprOf_setJSRepr_self _ hs
  refine ⟨?_, ?_, ?_, ?_, ?_⟩
  · rw [hidx, partsOf_eq hrepr]
  · rw [partsOf_eq hg'repr, partsOf_eq hrepr]
  · rw [parserTableOf_eq hg'repr, parserTableOf_eq hrepr]
  · rw [hg', length_Files_setJSRepr]
  · intro ref hnd
    rw [overlayEntry_eq hg'repr]
    show alookup ((addPartOverlay repr.Meta repr.AST.TopLevelSymbolToPartsFromParser
      part.DeclaredSymbols repr.AST.Parts.length).TopLevelSymbolToPartsOverlay.getD []) ref = _
    rw [alookup_addPartOverlay _ _ part.DeclaredSymbols repr.Meta ref hnd]
    rw [overlayEntry_eq hrepr]
    simp only [declaresTop, parserPartsOf, parserTableOf_eq hrepr, hidx]

/-- Inversion and postcondition of iterated AddPartToFile calls: parts are
appended in order with nil use maps repaired, the returned indices are
consecutive, the parser table is untouched, and each symbol's overlay entry
accumulates the new declaring part indices behind its previous value (seeded
from the parser table when absent). -/
theorem addPartsToFile_spec {s : Nat} :
    ∀ (ps : List Part) (g g' : LinkerGraph) (idxs : List Nat),
      addPartsToFile g s ps = some (g', idxs) →
      partsOf g' s = partsOf g s ++
        ps.map (fun p => { p with SymbolUses := some (p.SymbolUses.getD []) }) ∧
      idxs = List.range' (partsOf g s).length ps.length ∧
      parserTableOf g' s = parserTableOf g s ∧
      (∀ ref, (∀ q ∈ ps, (q.DeclaredSymbols.map (·.Ref)).Nodup) →
        overlayEntry g' s ref =
          match overlayEntry g s ref with
          | some v => some (v ++ declIdxs (partsOf g s).length ps ref)
          | none =>
            if ps.any (declaresTop ref) then
              some (parserPartsOf g s ref ++ declIdxs (partsOf g s).length ps ref)
            else none) := by
  intro ps
  induction ps with
  | nil =>
    intro g g' idxs h
    rw [addPartsToFile] at h
    cases h
    refine ⟨by simp, rfl, rfl, ?_⟩
    intro ref _
    cases hov : overlayEntry g s ref <;> simp [declIdxs, hov]
  | cons p ps ih =>
    intro g g' idxs h
    rw [addPartsToFile] at h
    cases hA : AddPartToFile g s p with
    | none => rw [hA] at h; cases h
    | some gi =>
    obtain ⟨g1, i⟩ := gi
    simp only [hA] at h
    cases hR : addPartsToFile g1 s ps with
    | none => rw [hR] at h; cases h
    | some gis =>
    obtain ⟨g2, is⟩ := gis
    simp only [hR] at h
    have hg' : g' = g2 ∧ idxs = i :: is := by
      cases h
      exact ⟨rfl, rfl⟩
    obtain ⟨rfl, rfl⟩ := hg'
    obtain ⟨hi, hparts1, hparser1, _, hov1⟩ := AddPartToFile_spec hA
    obtain ⟨hparts2, his, hparser2, hov2⟩ := ih g1 g' is hR
    have hlen1 : (partsOf g1 s).length = (partsOf g s).length + 1 := by
      rw [hparts1, List.length_append]
      rfl
    refine ⟨?_, ?_, ?_, ?_⟩
    · rw [hparts2, hparts1, List.map_cons, List.append_assoc]
      rfl
    · rw [his, hlen1, hi, List.length_cons, List.range'_succ]
    · rw [hparser2, hparser1]
    · intro ref hnds
      have hndp : (p.DeclaredSymbols.map (·.Ref)).Nodup :=
        hnds p (List.mem_cons_self _ _)
      have hnds' : ∀ q ∈ ps, (q.DeclaredSymbols.map (·.Ref)).Nodup :=
        fun q hq => hnds q (List.mem_cons_of_mem _ hq)
      have hstep := hov1 ref hndp
      have hrest := hov2 ref hnds'
      have hpp1 : parserPartsOf g1 s ref = parserPartsOf g s ref := by
        simp only [parserPartsOf]
        rw [hparser1]
      rw [hrest]
      cases hov : overlayEntry g s ref with
      | some v =>
        rw [hov] at hstep
        by_cases hdp : declaresTop ref p = true
        · rw [if_pos hdp] at hstep
          rw [hstep]
          simp only []
          rw [hlen1, hi, declIdxs_cons, if_pos hdp]
          rw [List.append_assoc]
        · rw [if_neg hdp] at hstep
          rw [hstep]
          simp only []
          rw [hlen1, declIdxs_cons, if_neg hdp]
          rw [List.nil_append]
      | none =>
        rw [hov] at hstep
        by_cases hdp : declaresTop ref p = true
        · rw [if_pos hdp] at hstep
          rw [hstep]
          simp only []
          have hcond : ((p :: ps).any (declaresTop ref)) = true := by
            simp [List.any_cons, hdp]
          rw [hcond]
          simp only [if_true]
          rw [hlen1, hi, declIdxs_cons, if_pos hdp]
          rw [List.append_assoc]
        · rw [if_neg hdp] at hstep
          rw [hstep]
          simp only []
          have hanyc : ((p :: ps).any (declaresTop ref)) = ps.any (declaresTop ref) := by
            have hne : declaresTop ref p = false := by simpa using hdp
            simp [List.any_cons, hne]
          rw [hanyc, hpp1, hlen1, declIdxs_cons, if_neg hdp, List.nil_append]

/-- Claim C7: addPart repairs an absent symbol-use mapping to a present
empty one, appends each part at the end of the file's part list returning
consecutive indices, never mutates the parser-provided declaring-parts
table, and for every top-level symbol declared by the added parts (absent
from the overlay beforehand), the overlay entry afterwards holds exactly the
parser-recorded declaring parts followed by the added part indices, in
append order. -/
theorem c7_add_part_overlay (g : LinkerGraph) (s : Nat) (ps : List Part)
    (g' : LinkerGraph) (idxs : List Nat) (h : addPartsToFile g s ps = some (g', idxs)) :
    partsOf g' s = partsOf g s ++
      ps.map (fun p => { p with SymbolUses := some (p.SymbolUses.getD []) }) ∧
    idxs = List.range' (partsOf g s).length ps.length ∧
    parserTableOf g' s = parserTableOf g s ∧
    (∀ ref, (∀ q ∈ ps, (q.DeclaredSymbols.map (·.Ref)).Nodup) →
      overlayEntry g s ref = none →
      ps.any (declaresTop ref) = true →
      overlayEntry g' s ref =
        some (parserPartsOf g s ref ++ declIdxs (partsOf g s).length ps ref)) := by
  obtain ⟨h1, h2, h3, h4⟩ := addPartsToFile_spec ps g g' idxs h
  refine ⟨h1, h2, h3, ?_⟩
  intro ref hnds hov hany
  rw [h4 ref hnds, hov]
  simp only []
  rw [if_pos hany]

/-! ### Witnesses and counterexamples on concrete inputs -/

theorem c9_symbols_moved_witness :
    (CloneLinkerGraph [exFileSym] [0] [] false).SymbolsForSource.getD 0 none =
        some [exSymbol] ∧
      symbolsPointerOf (CloneLinkerGraph [exFileSym] [0] [] false) 0 = some none := by
  have hc := @c9_symbols_moved [exFileSym] [0] [] false 0 exReprSym (by decide) (by decide) rfl
  exact ⟨hc.1.trans (by decide), hc.2⟩

theorem c6_assertion_stripping_witness :
    ((recordsOf (CloneLinkerGraph [exFileDynJS] [0] [] true) 0).getD 0
        ⟨ImportKind.Stmt, none, none⟩).Assertions = none ∧
      recordsOf (CloneLinkerGraph [exFileDynJS] [0] [] false) 0 =
        recordsOfFile exFileDynJS := by
  constructor
  · exact (@c6_assertion_stripping [exFileDynJS] [0] [] true 0 (by decide) (by decide)).1
      rfl exReprDynJS rfl _ (by decide) (by decide) (by decide)
  · exact (@c6_assertion_stripping [exFileDynJS] [0] [] false 0 (by decide) (by decide)).2 rfl

/-- The frozen claim C6 is false as stated: in this input, file 0 is
reachable, code splitting is enabled, and its only import record is dynamic
with a valid resolved target, yet after CloneLinkerGraph the record
keeps its assertion metadata, because the file is CSS-family and
assertion stripping is applied only in the JS-family clone branch. -/
theorem c6_assertion_stripping_counterexample :
    ((recordsOf (CloneLinkerGraph [exFileDynCSS] [0] [] true) 0).getD 0
        ⟨ImportKind.Stmt, none, none⟩).Kind = ImportKind.Dynamic ∧
      ((recordsOf (CloneLinkerGraph [exFileDynCSS] [0] [] true) 0).getD 0
        ⟨ImportKind.Stmt, none, none⟩).SourceIndex.isSome = true ∧
      ((recordsOf (CloneLinkerGraph [exFileDynCSS] [0] [] true) 0).getD 0
        ⟨ImportKind.Stmt, none, none⟩).Assertions ≠ none := by
  decide

theorem c2_dynamic_entry_dedup_witness :
    ((CloneLinkerGraph [exEntryFile, exImporter1, exImporter2, exTarget] [0, 1, 2, 3]
        [⟨"a", 0, false⟩] true).entryPoints.map (·.SourceIndex)).count 3 = 1 ∧
      kindOf (CloneLinkerGraph [exEntryFile, exImporter1, exImporter2, exTarget]
        [0, 1, 2, 3] [⟨"a", 0, false⟩] true) 3 = EntryPointKind.dynamicImport := by
  have hc := c2_dynamic_entry_dedup [exEntryFile, exImporter1, exImporter2, exTarget]
    [0, 1, 2, 3] [⟨"a", 0, false⟩] 3 1 2 (by decide) (by decide) (by decide) (by decide)
    (by decide) (by decide) (by decide) (by decide) (by decide)
  exact hc.1 (by decide)

theorem c3_dependency_edges_witness :
    depsOf (exG3.getD exGraph) 0 0 = depsOf exGraph 0 0 ++ [⟨1, 0⟩, ⟨1, 1⟩] ∧
      (depsOf (exG3.getD exGraph) 0 0).length = (depsOf exGraph 0 0).length + 2 := by
  have h : GenerateSymbolImportAndUse exGraph 0 0 ⟨1, 0⟩ 2 1 = some (exG3.getD exGraph) :=
    rfl
  have hc := c3_dependency_edges exGraph 0 0 ⟨1, 0⟩ 2 1 _ (by decide) rfl h
  exact ⟨hc.1.trans (by decide), hc.2.trans (by decide)⟩

theorem c4_import_binding_witness :
    alookup (importsToBindOf (exG3.getD exGraph) 0) ⟨1, 0⟩ = some ⟨1, ⟨1, 0⟩⟩ ∧
      importsToBindOf (exG4.getD exGraph) 0 = importsToBindOf exGraph 0 := by
  constructor
  · have h : GenerateSymbolImportAndUse exGraph 0 0 ⟨1, 0⟩ 2 1 =
        some (exG3.getD exGraph) := rfl
    exact (c4_import_binding exGraph 0 0 ⟨1, 0⟩ 2 1 _ (by decide) rfl h).1 (by decide)
  · have h : GenerateSymbolImportAndUse exGraph 0 0 ⟨0, 5⟩ 1 0 =
        some (exG4.getD exGraph) := rfl
    exact (c4_import_binding exGraph 0 0 ⟨0, 5⟩ 1 0 _ (by decide) rfl h).2 rfl

theorem c8_use_count_accumulation_witness :
    GenerateSymbolImportAndUse exGraph 0 0 ⟨1, 0⟩ 0 1 = some exGraph ∧
      countOf (exG8b.getD exGraph) 0 0 ⟨1, 0⟩ = some 5 := by
  have hc := c8_use_count_accumulation exGraph 0 0 ⟨1, 0⟩ 1 2 3 (exG3.getD exGraph)
    (exG8b.getD exGraph)
  refine ⟨hc.1, ?_⟩
  have h5 := hc.2 (by decide) (by decide) rfl rfl
  exact h5.trans (by decide)

theorem c7_add_part_overlay_witness :
    partsOf (exG7.getD (exGraph, [])).1 0 =
        partsOf exGraph 0 ++
          [⟨[⟨⟨0, 7⟩, true⟩], some [], []⟩, ⟨[⟨⟨0, 7⟩, true⟩], some [], []⟩] ∧
      (exG7.getD (exGraph, [])).2 = [1, 2] ∧
      parserTableOf (exG7.getD (exGraph, [])).1 0 = parserTableOf exGraph 0 ∧
      overlayEntry (exG7.getD (exGraph, [])).1 0 ⟨0, 7⟩ = some [0, 1, 2] := by
  have h : addPartsToFile exGraph 0 [exPart7, exPart7] =
      some ((exG7.getD (exGraph, [])).1, (exG7.getD (exGraph, [])).2) := rfl
  have hc := c7_add_part_overlay exGraph 0 [exPart7, exPart7] _ _ h
  refine ⟨hc.1.trans (by decide), hc.2.1.trans (by decide), hc.2.2.1, ?_⟩
  have hov := hc.2.2.2 ⟨0, 7⟩ (by decide) (by decide) (by decide)
  exact hov.trans (by decide)

/-! ### Relabeling equivariance of graph construction -/

theorem dynamicCandidatesOfRecords_relabel (pi : Nat → Nat) (rs : List ImportRecord) :
    dynamicCandidatesOfRecords (rs.map (relabelRecord pi)) =
      (dynamicCandidatesOfRecords rs).map pi := by
  simp only [dynamicCandidatesOfRecords, List.filterMap_map, List.map_filterMap]
  apply List.filterMap_congr
  intro r _
  simp only [Function.comp_apply]
  cases hsi : r.SourceIndex with
  | none => simp [relabelRecord, hsi]
  | some t => by_cases hk : r.Kind = ImportKind.Dynamic <;> simp [relabelRecord, hsi, hk]

theorem dynamicCandidatesOf_relabel (cs : Bool) (pi : Nat → Nat) (f : InputFile) :
    dynamicCandidatesOf cs (relabelInputFile pi f) = (dynamicCandidatesOf cs f).map pi := by
  cases hrepr : f.Repr with
  | js repr =>
    simp only [relabelInputFile, hrepr, dynamicCandidatesOf, relabelJSAST]
    by_cases hcs : cs = true
    · simp only [hcs, if_true]
      exact dynamicCandidatesOfRecords_relabel pi repr.AST.ImportRecords
    · simp only [show cs = false by simpa using hcs, Bool.false_eq_true, if_false,
        List.map_nil]
  | css repr => simp [relabelInputFile, hrepr, dynamicCandidatesOf]
  | empty => simp [relabelInputFile, hrepr, dynamicCandidatesOf]

theorem dynamicImportCandidates_relabel (cs : Bool) (pi : Nat → Nat)
    (inputs1 inputs2 : List InputFile) (reach : List Nat)
    (hbound : ∀ x ∈ reach, x < inputs1.length)
    (hinputs : ∀ i < inputs1.length,
      inputs2.getD (pi i) ⟨FileRepr.empty⟩ =
        relabelInputFile pi (inputs1.getD i ⟨FileRepr.empty⟩)) :
    dynamicImportCandidates cs inputs2 (reach.map pi) =
      (dynamicImportCandidates cs inputs1 reach).map pi := by
  rw [dynamicImportCandidates, dynamicImportCandidates, List.map_flatten, List.map_map,
    List.map_map]
  congr 1
  apply List.map_congr_left
  intro si hsi
  simp only [Function.comp_apply]
  rw [hinputs si (hbound si hsi), dynamicCandidatesOf_relabel]

theorem stableFold_relabel (pi : Nat → Nat) (hinj : Function.Injective pi) (n : Nat)
    (hbnd : ∀ i < n, pi i < n) :
    ∀ (l : List Nat) (k : Nat) (st1 st2 : List Nat),
      st1.length = n → st2.length = n →
      (∀ i < n, st2.getD (pi i) 0 = st1.getD i 0) →
      (∀ x ∈ l, x < n) →
      ∀ i < n,
        ((List.enumFrom k (l.map pi)).foldl (fun st q => st.set q.2 q.1) st2).getD (pi i) 0 =
          ((List.enumFrom k l).foldl (fun st q => st.set q.2 q.1) st1).getD i 0 := by
  intro l
  induction l with
  | nil => intro k st1 st2 _ _ hrel _ i hi; exact hrel i hi
  | cons x l ih =>
    intro k st1 st2 hl1 hl2 hrel hb i hi
    rw [List.map_cons]
    simp only [List.enumFrom_cons, List.foldl_cons]
    have hx : x < n := hb x (List.mem_cons_self _ _)
    apply ih (k + 1) (st1.set x k) (st2.set (pi x) k)
    · rw [List.length_set]; exact hl1
    · rw [List.length_set]; exact hl2
    · intro j hj
      by_cases hjx : j = x
      · subst hjx
        rw [getD_set_self st2 (by rw [hl2]; exact hbnd j hj) k,
          getD_set_self st1 (by rw [hl1]; exact hj) k]
      · rw [getD_set_ne st2 (fun he => hjx ((hinj he).symm)),
          getD_set_ne st1 (fun (he : x = j) => hjx he.symm)]
        exact hrel j hj
    · exact fun y hy => hb y (List.mem_cons_of_mem _ hy)
    · exact hi

theorem buildStable_relabel (pi : Nat → Nat) (hinj : Function.Injective pi) (n : Nat)
    (hbnd : ∀ i < n, pi i < n) (reach : List Nat) (hb : ∀ x ∈ reach, x < n) :
    ∀ i < n, (buildStable (reach.map pi) n).getD (pi i) 0 = (buildStable reach n).getD i 0 := by
  intro i hi
  rw [buildStable, buildStable, List.enum_eq_enumFrom, List.enum_eq_enumFrom]
  apply stableFold_relabel pi hinj n hbnd reach 0 (List.replicate n 0) (List.replicate n 0)
    (List.length_replicate n 0) (List.length_replicate n 0) ?_ hb i hi
  intro j hj
  rw [getD_replicate (hbnd j hj), getD_replicate hj]

theorem mem_map_injective {pi : Nat → Nat} (hinj : Function.Injective pi)
    {l : List Nat} {x : Nat} : pi x ∈ l.map pi ↔ x ∈ l := by
  constructor
  · intro h
    obtain ⟨y, hy, he⟩ := List.mem_map.mp h
    rw [← hinj he]
    exact hy
  · exact List.mem_map_of_mem pi

theorem kindAt_clonedFiles_relabel (pi : Nat → Nat) (hinj : Function.Injective pi)
    (inputs1 inputs2 : List InputFile) (hlen2 : inputs2.length = inputs1.length)
    (hbnd : ∀ i < inputs1.length, pi i < inputs1.length)
    (reach : List Nat) (eps : List EntryPoint) (cs : Bool) {i : Nat}
    (hi : i < inputs1.length) :
    kindAt (clonedFiles inputs2 (reach.map pi) (eps.map (relabelEntryPoint pi)) cs) (pi i) =
      kindAt (clonedFiles inputs1 reach eps cs) i := by
  rw [kindAt_clonedFiles inputs2 _ _ cs (by rw [hlen2]; exact hbnd i hi),
    kindAt_clonedFiles inputs1 reach eps cs hi]
  have hsrc : (eps.map (relabelEntryPoint pi)).map (·.SourceIndex) =
      (eps.map (·.SourceIndex)).map pi := by
    rw [List.map_map, List.map_map]
    rfl
  rw [hsrc]
  by_cases hm : i ∈ eps.map (·.SourceIndex)
  · rw [if_pos hm, if_pos ((mem_map_injective hinj).mpr hm)]
  · rw [if_neg hm, if_neg (fun hc => hm ((mem_map_injective hinj).mp hc))]

theorem selectPromoted_relabel (pi : Nat → Nat) (hinj : Function.Injective pi) (n : Nat)
    (hbnd : ∀ i < n, pi i < n) :
    ∀ (dyn : List Nat) (fs1 fs2 : List LinkerFile),
      fs1.length = n → fs2.length = n →
      (∀ i < n, kindAt fs2 (pi i) = kindAt fs1 i) →
      (∀ x ∈ dyn, x < n) →
      selectPromoted fs2 (dyn.map pi) = (selectPromoted fs1 dyn).map pi := by
  intro dyn
  induction dyn with
  | nil => intro fs1 fs2 _ _ _ _; rfl
  | cons x xs ih =>
    intro fs1 fs2 hl1 hl2 hrel hb
    have hx : x < n := hb x (List.mem_cons_self _ _)
    rw [List.map_cons]
    by_cases hk : kindAt fs1 x = EntryPointKind.none
    · have hk2 : kindAt fs2 (pi x) = EntryPointKind.none := by
        rw [hrel x hx]
        exact hk
      rw [show selectPromoted fs2 (pi x :: xs.map pi) =
          pi x :: selectPromoted (setKind fs2 (pi x) EntryPointKind.dynamicImport)
            (xs.map pi) by
        simp [selectPromoted, hk2]]
      rw [show selectPromoted fs1 (x :: xs) =
          x :: selectPromoted (setKind fs1 x EntryPointKind.dynamicImport) xs by
        simp [selectPromoted, hk]]
      rw [List.map_cons]
      congr 1
      apply ih _ _ (by rw [length_setKind]; exact hl1) (by rw [length_setKind]; exact hl2)
        ?_ (fun y hy => hb y (List.mem_cons_of_mem _ hy))
      intro j hj
      by_cases hjx : j = x
      · subst hjx
        rw [kindAt_setKind_self (by rw [hl2]; exact hbnd j hj),
          kindAt_setKind_self (by rw [hl1]; exact hj)]
      · rw [kindAt_setKind_ne fs2 (fun he => hjx ((hinj he).symm)),
          kindAt_setKind_ne fs1 (fun (he : x = j) => hjx he.symm)]
        exact hrel j hj
    · have hk2 : ¬kindAt fs2 (pi x) = EntryPointKind.none := by
        rw [hrel x hx]
        exact hk
      rw [show selectPromoted fs2 (pi x :: xs.map pi) =
          selectPromoted fs2 (xs.map pi) by simp [selectPromoted, hk2]]
      rw [show selectPromoted fs1 (x :: xs) = selectPromoted fs1 xs by
        simp [selectPromoted, hk]]
      exact ih _ _ hl1 hl2 hrel (fun y hy => hb y (List.mem_cons_of_mem _ hy))

theorem relabelRef_injective {pi : Nat → Nat} (hinj : Function.Injective pi) :
    Function.Injective (relabelRef pi) := by
  intro a b h
  cases a
  cases b
  simp only [relabelRef] at h
  injection h with hs hi
  rw [hinj hs, hi]

theorem alookup_asetAll_relabel {β : Type} (pi : Nat → Nat)
    (hinj : Function.Injective pi) :
    ∀ (m : List (Ref × β)) (l1 l2 : List (Ref × β)),
      (∀ r, alookup l2 (relabelRef pi r) = alookup l1 r) →
      ∀ r, alookup (asetAll l2 (relabelTable pi m)) (relabelRef pi r) =
        alookup (asetAll l1 m) r := by
  intro m
  induction m with
  | nil => intro l1 l2 hrel r; exact hrel r
  | cons e m ih =>
    intro l1 l2 hrel r
    rw [show relabelTable pi (e :: m) =
        (relabelRef pi e.1, e.2) :: relabelTable pi m from rfl]
    rw [show asetAll l2 ((relabelRef pi e.1, e.2) :: relabelTable pi m) =
        asetAll (aset l2 (relabelRef pi e.1) e.2) (relabelTable pi m) from rfl]
    rw [show asetAll l1 (e :: m) = asetAll (aset l1 e.1 e.2) m from rfl]
    apply ih
    intro r'
    by_cases hr : r' = e.1
    · subst hr
      rw [alookup_aset_self, alookup_aset_self]
    · rw [alookup_aset_ne _ (fun he => hr ((relabelRef_injective hinj) he).symm),
        alookup_aset_ne _ (fun (he : e.1 = r') => hr he.symm)]
      exact hrel r'

theorem mergeTS_cons (fs : List LinkerFile) (si : Nat) (reach : List Nat)
    (acc : Option (List (Ref × List (String × TSEnumValue)))) :
    mergeTS fs (si :: reach) acc =
      mergeTS fs reach
        (match tsTableOfFile (fs.getD si defaultLinkerFile).InputFile with
          | some m => some (asetAll (acc.getD []) m)
          | none => acc) := by
  show mergeTS fs reach _ = mergeTS fs reach _
  congr 1
  cases hrepr : (fs.getD si defaultLinkerFile).InputFile.Repr with
  | js repr => simp only [tsTableOfFile, hrepr]
  | css repr => simp only [tsTableOfFile, hrepr]
  | empty => simp only [tsTableOfFile, hrepr]

theorem mergeCV_cons (fs : List LinkerFile) (si : Nat) (reach : List Nat)
    (acc : Option (List (Ref × ConstValue))) :
    mergeCV fs (si :: reach) acc =
      mergeCV fs reach
        (match cvTableOfFile (fs.getD si defaultLinkerFile).InputFile with
          | some m => some (asetAll (acc.getD []) m)
          | none => acc) := by
  show mergeCV fs reach _ = mergeCV fs reach _
  congr 1
  cases hrepr : (fs.getD si defaultLinkerFile).InputFile.Repr with
  | js repr => simp only [cvTableOfFile, hrepr]
  | css repr => simp only [cvTableOfFile, hrepr]
  | empty => simp only [cvTableOfFile, hrepr]

theorem inputFile_getD_promoteFiles (fs : List LinkerFile) (dyn : List Nat) (i : Nat) :
    ((promoteFiles fs dyn).getD i defaultLinkerFile).InputFile =
      (fs.getD i defaultLinkerFile).InputFile := by
  rw [List.getD_eq_getElem?_getD, List.getD_eq_getElem?_getD, getElem?_promoteFiles]
  cases h : fs[i]? with
  | none => rfl
  | some f => by_cases hm : i ∈ dyn ∧ f.entryPointKind = EntryPointKind.none <;> simp [hm]

theorem inputFile_getD_clonedFiles (inputs : List InputFile) (reach : List Nat)
    (eps : List EntryPoint) (cs : Bool) {i : Nat} (hi : i < inputs.length)
    (hmem : i ∈ reach) :
    ((clonedFiles inputs reach eps cs).getD i defaultLinkerFile).InputFile =
      cloneInputFile cs i (inputs.getD i ⟨FileRepr.empty⟩) := by
  rw [List.getD_eq_getElem?_getD]
  rw [show clonedFiles inputs reach eps cs =
      cloneFilesPhase cs inputs (initialFiles inputs eps) reach from rfl]
  rw [getElem?_cloneFilesPhase]
  rw [show initialFiles inputs eps =
      markEntryPoints (List.replicate inputs.length defaultLinkerFile) eps from rfl]
  rw [getElem?_markEntryPoints]
  rw [List.getElem?_replicate, if_pos hi]
  by_cases hu : i ∈ eps.map (·.SourceIndex) <;> simp [hu, hmem]

theorem tsTableOfFile_clone (cs : Bool) (i : Nat) (f : InputFile) :
    tsTableOfFile (cloneInputFile cs i f) = tsTableOfFile f := by
  cases hrepr : f.Repr with
  | js repr => simp only [cloneInputFile, hrepr, tsTableOfFile, cloneJSRepr]
  | css repr => simp only [cloneInputFile, hrepr, tsTableOfFile]
  | empty => simp only [cloneInputFile, hrepr, tsTableOfFile]

theorem cvTableOfFile_clone (cs : Bool) (i : Nat) (f : InputFile) :
    cvTableOfFile (cloneInputFile cs i f) = cvTableOfFile f := by
  cases hrepr : f.Repr with
  | js repr => simp only [cloneInputFile, hrepr, cvTableOfFile, cloneJSRepr]
  | css repr => simp only [cloneInputFile, hrepr, cvTableOfFile]
  | empty => simp only [cloneInputFile, hrepr, cvTableOfFile]

theorem tsTableOfFile_relabel (pi : Nat → Nat) (f : InputFile) :
    tsTableOfFile (relabelInputFile pi f) =
      (tsTableOfFile f).map (relabelTable pi) := by
  cases hrepr : f.Repr with
  | js repr =>
    simp only [relabelInputFile, hrepr, tsTableOfFile, relabelJSAST]
    cases repr.AST.TSEnums <;> rfl
  | css repr => simp only [relabelInputFile, hrepr, tsTableOfFile]; rfl
  | empty => simp only [relabelInputFile, hrepr, tsTableOfFile]; rfl

theorem cvTableOfFile_relabel (pi : Nat → Nat) (f : InputFile) :
    cvTableOfFile (relabelInputFile pi f) =
      (cvTableOfFile f).map (relabelTable pi) := by
  cases hrepr : f.Repr with
  | js repr =>
    simp only [relabelInputFile, hrepr, cvTableOfFile, relabelJSAST]
    cases repr.AST.ConstValues <;> rfl
  | css repr => simp only [relabelInputFile, hrepr, cvTableOfFile]; rfl
  | empty => simp only [relabelInputFile, hrepr, cvTableOfFile]; rfl

theorem mergeTS_relabel (pi : Nat → Nat) (hinj : Function.Injective pi)
    (fs1 fs2 : List LinkerFile) :
    ∀ (reach : List Nat),
      (∀ si ∈ reach,
        tsTableOfFile ((fs2.getD (pi si) defaultLinkerFile)).InputFile =
          (tsTableOfFile ((fs1.getD si defaultLinkerFile)).InputFile).map
            (relabelTable pi)) →
      ∀ (acc1 acc2 : Option (List (Ref × List (String × TSEnumValue)))),
        (∀ r, alookup (acc2.getD []) (relabelRef pi r) = alookup (acc1.getD []) r) →
        ∀ r, optLookup (mergeTS fs2 (reach.map pi) acc2) (relabelRef pi r) =
          optLookup (mergeTS fs1 reach acc1) r := by
  intro reach
  induction reach with
  | nil => intro _ acc1 acc2 hrel r; exact hrel r
  | cons si reach ih =>
    intro hts acc1 acc2 hrel r
    rw [List.map_cons, mergeTS_cons, mergeTS_cons]
    rw [hts si (List.mem_cons_self _ _)]
    cases hm : tsTableOfFile ((fs1.getD si defaultLinkerFile)).InputFile with
    | none =>
      simp only [Option.map_none']
      exact ih (fun x hx => hts x (List.mem_cons_of_mem _ hx)) acc1 acc2 hrel r
    | some m =>
      simp only [Option.map_some']
      apply ih (fun x hx => hts x (List.mem_cons_of_mem _ hx))
      intro r'
      simp only [Option.getD_some]
      exact alookup_asetAll_relabel pi hinj m _ _ hrel r'

theorem mergeCV_relabel (pi : Nat → Nat) (hinj : Function.Injective pi)
    (fs1 fs2 : List LinkerFile) :
    ∀ (reach : List Nat),
      (∀ si ∈ reach,
        cvTableOfFile ((fs2.getD (pi si) defaultLinkerFile)).InputFile =
          (cvTableOfFile ((fs1.getD si defaultLinkerFile)).InputFile).map
            (relabelTable pi)) →
      ∀ (acc1 acc2 : Option (List (Ref × ConstValue))),
        (∀ r, alookup (acc2.getD []) (relabelRef pi r) = alookup (acc1.getD []) r) →
        ∀ r, optLookup (mergeCV fs2 (reach.map pi) acc2) (relabelRef pi r) =
          optLookup (mergeCV fs1 reach acc1) r := by
  intro reach
  induction reach with
  | nil => intro _ acc1 acc2 hrel r; exact hrel r
  | cons si reach ih =>
    intro hts acc1 acc2 hrel r
    rw [List.map_cons, mergeCV_cons, mergeCV_cons]
    rw [hts si (List.mem_cons_self _ _)]
    cases hm : cvTableOfFile ((fs1.getD si defaultLinkerFile)).InputFile with
    | none =>
      simp only [Option.map_none']
      exact ih (fun x hx => hts x (List.mem_cons_of_mem _ hx)) acc1 acc2 hrel r
    | some m =>
      simp only [Option.map_some']
      apply ih (fun x hx => hts x (List.mem_cons_of_mem _ hx))
      intro r'
      simp only [Option.getD_some]
      exact alookup_asetAll_relabel pi hinj m _ _ hrel r'

theorem getD_map_lt {α β : Type} (f : α → β) (l : List α) {s : Nat} (h : s < l.length)
    (d : β) (d' : α) : (l.map f).getD s d = f (l.getD s d') := by
  rw [List.getD_eq_getElem?_getD, List.getD_eq_getElem?_getD, List.getElem?_map,
    List.getElem?_eq_getElem h]
  rfl

theorem getD_mem {α : Type} (l : List α) {s : Nat} (h : s < l.length) (d : α) :
    l.getD s d ∈ l := by
  rw [List.getD_eq_getElem?_getD, List.getElem?_eq_getElem h]
  exact List.getElem_mem h

theorem promotedEntryPoints_relabel (pi : Nat → Nat) (reach : List Nat) (ss : List Nat)
    (h : ∀ s ∈ ss, s < reach.length) :
    promotedEntryPoints (reach.map pi) ss =
      (promotedEntryPoints reach ss).map (relabelEntryPoint pi) := by
  rw [promotedEntryPoints, promotedEntryPoints, List.map_map]
  apply List.map_congr_left
  intro s hs
  simp only [Function.comp_apply, relabelEntryPoint]
  rw [getD_map_lt pi reach (h s hs) 0 0]

theorem mem_sortedPromotedStables (inputs : List InputFile) (reach : List Nat)
    (eps : List EntryPoint) (cs : Bool) (dyn : List Nat)
    (hnd : reach.Nodup) (hbound : ∀ x ∈ reach, x < inputs.length)
    (hdynr : ∀ x ∈ dyn, x ∈ reach) {s : Nat}
    (hs : s ∈ sortedPromotedStables inputs reach eps cs dyn) : s < reach.length := by
  rw [sortedPromotedStables] at hs
  have hs' := (List.perm_insertionSort (· ≤ ·) _).subset hs
  obtain ⟨x, hx, rfl⟩ := List.mem_map.mp hs'
  have hb' : ∀ y ∈ dyn, y < (clonedFiles inputs reach eps cs).length := by
    rw [length_clonedFiles]
    exact fun y hy => hbound y (hdynr y hy)
  have hxd := ((mem_selectPromoted dyn _ hb' x).mp hx).1
  exact buildStable_lt_length reach inputs.length hnd hbound (hdynr x hxd)

theorem mem_entryPoints_src_lt (inputs : List InputFile) (reach : List Nat)
    (eps : List EntryPoint) (cs : Bool)
    (hnd : reach.Nodup) (hbound : ∀ x ∈ reach, x < inputs.length)
    (hepb : ∀ ep ∈ eps, ep.SourceIndex < inputs.length)
    (hclosed : ∀ x ∈ dynamicImportCandidates cs inputs reach, x ∈ reach) :
    ∀ ep ∈ (CloneLinkerGraph inputs reach eps cs).entryPoints,
      ep.SourceIndex < inputs.length := by
  intro ep hep
  rw [show CloneLinkerGraph inputs reach eps cs =
      CloneLinkerGraphWith inputs reach eps cs
        (dynamicImportCandidates cs inputs reach) from rfl] at hep
  rw [cloneWith_entryPoints, finalEntryPoints] at hep
  rcases List.mem_append.mp hep with hep1 | hep2
  · exact hepb ep hep1
  · rw [promotedEntryPoints] at hep2
    obtain ⟨s, hsmem, rfl⟩ := List.mem_map.mp hep2
    have hslt : s < reach.length :=
      mem_sortedPromotedStables inputs reach eps cs _ hnd hbound hclosed hsmem
    exact hbound _ (getD_mem reach hslt 0)

/-- Relabeling equivariance of graph construction: a run on inputs whose
file identities are relabeled by a permutation consistent with the
reachable-file ordering produces the relabeled entry-point list, a
stable-index mapping that agrees through the permutation, and merged tables
that agree after relabeling their keys. -/
theorem clone_relabel_spec (pi : Nat → Nat) (inputs1 inputs2 : List InputFile)
    (reach : List Nat) (eps : List EntryPoint) (cs : Bool)
    (hinj : Function.Injective pi)
    (hbnd : ∀ i < inputs1.length, pi i < inputs1.length)
    (hlen2 : inputs2.length = inputs1.length)
    (hinputs : ∀ i < inputs1.length,
      inputs2.getD (pi i) ⟨FileRepr.empty⟩ =
        relabelInputFile pi (inputs1.getD i ⟨FileRepr.empty⟩))
    (hnd : reach.Nodup)
    (hbound : ∀ x ∈ reach, x < inputs1.length)
    (hepb : ∀ ep ∈ eps, ep.SourceIndex < inputs1.length)
    (hclosed : ∀ x ∈ dynamicImportCandidates cs inputs1 reach, x ∈ reach) :
    (CloneLinkerGraph inputs2 (reach.map pi) (eps.map (relabelEntryPoint pi)) cs).entryPoints
        = (CloneLinkerGraph inputs1 reach eps cs).entryPoints.map (relabelEntryPoint pi) ∧
    (∀ i < inputs1.length,
      (CloneLinkerGraph inputs2 (reach.map pi) (eps.map (relabelEntryPoint pi))
          cs).StableSourceIndices.getD (pi i) 0 =
        (CloneLinkerGraph inputs1 reach eps cs).StableSourceIndices.getD i 0) ∧
    (∀ r : Ref,
      optLookup (CloneLinkerGraph inputs2 (reach.map pi) (eps.map (relabelEntryPoint pi))
          cs).TSEnums (relabelRef pi r) =
        optLookup (CloneLinkerGraph inputs1 reach eps cs).TSEnums r) ∧
    (∀ r : Ref,
      optLookup (CloneLinkerGraph inputs2 (reach.map pi) (eps.map (relabelEntryPoint pi))
          cs).ConstValues (relabelRef pi r) =
        optLookup (CloneLinkerGraph inputs1 reach eps cs).ConstValues r) := by
  have hdyn : dynamicImportCandidates cs inputs2 (reach.map pi) =
      (dynamicImportCandidates cs inputs1 reach).map pi :=
    dynamicImportCandidates_relabel cs pi inputs1 inputs2 reach hbound hinputs
  have hstable : ∀ i < inputs1.length,
      (buildStable (reach.map pi) inputs2.length).getD (pi i) 0 =
        (buildStable reach inputs1.length).getD i 0 := by
    rw [hlen2]
    exact buildStable_relabel pi hinj inputs1.length hbnd reach hbound
  have hkind : ∀ i < inputs1.length,
      kindAt (clonedFiles inputs2 (reach.map pi) (eps.map (relabelEntryPoint pi)) cs)
          (pi i) =
        kindAt (clonedFiles inputs1 reach eps cs) i :=
    fun i hi => kindAt_clonedFiles_relabel pi hinj inputs1 inputs2 hlen2 hbnd reach eps cs hi
  have hdynb : ∀ x ∈ dynamicImportCandidates cs inputs1 reach, x < inputs1.length :=
    fun x hx => hbound x (hclosed x hx)
  have hsel : selectPromoted
        (clonedFiles inputs2 (reach.map pi) (eps.map (relabelEntryPoint pi)) cs)
        ((dynamicImportCandidates cs inputs1 reach).map pi) =
      (selectPromoted (clonedFiles inputs1 reach eps cs)
        (dynamicImportCandidates cs inputs1 reach)).map pi :=
    selectPromoted_relabel pi hinj inputs1.length hbnd _ _ _
      (length_clonedFiles inputs1 reach eps cs)
      (by rw [length_clonedFiles, hlen2]) hkind hdynb
  have hselb1 : ∀ x ∈ selectPromoted (clonedFiles inputs1 reach eps cs)
      (dynamicImportCandidates cs inputs1 reach), x ∈ reach := by
    intro x hx
    have hb' : ∀ y ∈ dynamicImportCandidates cs inputs1 reach,
        y < (clonedFiles inputs1 reach eps cs).length := by
      rw [length_clonedFiles]
      exact hdynb
    exact hclosed x ((mem_selectPromoted _ _ hb' x).mp hx).1
  have hss : sortedPromotedStables inputs2 (reach.map pi) (eps.map (relabelEntryPoint pi))
        cs ((dynamicImportCandidates cs inputs1 reach).map pi) =
      sortedPromotedStables inputs1 reach eps cs
        (dynamicImportCandidates cs inputs1 reach) := by
    rw [sortedPromotedStables, sortedPromotedStables, hsel, List.map_map]
    congr 1
    apply List.map_congr_left
    intro x hx
    simp only [Function.comp_apply]
    exact hstable x (hbound x (hselb1 x hx))
  have hfep : finalEntryPoints inputs2 (reach.map pi) (eps.map (relabelEntryPoint pi)) cs
      ((dynamicImportCandidates cs inputs1 reach).map pi) =
      (finalEntryPoints inputs1 reach eps cs
        (dynamicImportCandidates cs inputs1 reach)).map (relabelEntryPoint pi) := by
    rw [finalEntryPoints, finalEntryPoints, List.map_append]
    congr 1
    rw [hss]
    apply promotedEntryPoints_relabel
    intro z hz
    exact mem_sortedPromotedStables inputs1 reach eps cs _ hnd hbound hclosed hz
  have htsfiles : ∀ si ∈ reach,
      tsTableOfFile ((promoteFiles
          (clonedFiles inputs2 (reach.map pi) (eps.map (relabelEntryPoint pi)) cs)
          ((dynamicImportCandidates cs inputs1 reach).map pi)).getD (pi si)
            defaultLinkerFile).InputFile =
        (tsTableOfFile ((promoteFiles (clonedFiles inputs1 reach eps cs)
          (dynamicImportCandidates cs inputs1 reach)).getD si
            defaultLinkerFile).InputFile).map (relabelTable pi) := by
    intro si hsi
    have hsib : si < inputs1.length := hbound si hsi
    rw [inputFile_getD_promoteFiles, inputFile_getD_promoteFiles]
    rw [inputFile_getD_clonedFiles inputs2 _ _ cs
      (by rw [hlen2]; exact hbnd si hsib) (List.mem_map_of_mem pi hsi)]
    rw [inputFile_getD_clonedFiles inputs1 _ _ cs hsib hsi]
    rw [tsTableOfFile_clone, tsTableOfFile_clone]
    rw [hinputs si hsib, tsTableOfFile_relabel]
  have hcvfiles : ∀ si ∈ reach,
      cvTableOfFile ((promoteFiles
          (clonedFiles inputs2 (reach.map pi) (eps.map (relabelEntryPoint pi)) cs)
          ((dynamicImportCandidates cs inputs1 reach).map pi)).getD (pi si)
            defaultLinkerFile).InputFile =
        (cvTableOfFile ((promoteFiles (clonedFiles inputs1 reach eps cs)
          (dynamicImportCandidates cs inputs1 reach)).getD si
            defaultLinkerFile).InputFile).map (relabelTable pi) := by
    intro si hsi
    have hsib : si < inputs1.length := hbound si hsi
    rw [inputFile_getD_promoteFiles, inputFile_getD_promoteFiles]
    rw [inputFile_getD_clonedFiles inputs2 _ _ cs
      (by rw [hlen2]; exact hbnd si hsib) (List.mem_map_of_mem pi hsi)]
    rw [inputFile_getD_clonedFiles inputs1 _ _ cs hsib hsi]
    rw [cvTableOfFile_clone, cvTableOfFile_clone]
    rw [hinputs si hsib, cvTableOfFile_relabel]
  refine ⟨?_, ?_, ?_, ?_⟩
  · rw [show CloneLinkerGraph inputs2 (reach.map pi) (eps.map (relabelEntryPoint pi)) cs =
        CloneLinkerGraphWith inputs2 (reach.map pi) (eps.map (relabelEntryPoint pi)) cs
          (dynamicImportCandidates cs inputs2 (reach.map pi)) from rfl]
    rw [show CloneLinkerGraph inputs1 reach eps cs =
        CloneLinkerGraphWith inputs1 reach eps cs
          (dynamicImportCandidates cs inputs1 reach) from rfl]
    rw [cloneWith_entryPoints, cloneWith_entryPoints, hdyn, hfep]
  · intro i hi
    rw [show CloneLinkerGraph inputs2 (reach.map pi) (eps.map (relabelEntryPoint pi)) cs =
        CloneLinkerGraphWith inputs2 (reach.map pi) (eps.map (relabelEntryPoint pi)) cs
          (dynamicImportCandidates cs inputs2 (reach.map pi)) from rfl]
    rw [show CloneLinkerGraph inputs1 reach eps cs =
        CloneLinkerGraphWith inputs1 reach eps cs
          (dynamicImportCandidates cs inputs1 reach) from rfl]
    rw [cloneWith_StableSourceIndices, cloneWith_StableSourceIndices]
    exact hstable i hi
  · intro r
    rw [show CloneLinkerGraph inputs2 (reach.map pi) (eps.map (relabelEntryPoint pi)) cs =
        CloneLinkerGraphWith inputs2 (reach.map pi) (eps.map (relabelEntryPoint pi)) cs
          (dynamicImportCandidates cs inputs2 (reach.map pi)) from rfl]
    rw [show CloneLinkerGraph inputs1 reach eps cs =
        CloneLinkerGraphWith inputs1 reach eps cs
          (dynamicImportCandidates cs inputs1 reach) from rfl]
    rw [cloneWith_TSEnums, cloneWith_TSEnums, hdyn]
    exact mergeTS_relabel pi hinj _ _ reach htsfiles none none (fun r' => rfl) r
  · intro r
    rw [show CloneLinkerGraph inputs2 (reach.map pi) (eps.map (relabelEntryPoint pi)) cs =
        CloneLinkerGraphWith inputs2 (reach.map pi) (eps.map (relabelEntryPoint pi)) cs
          (dynamicImportCandidates cs inputs2 (reach.map pi)) from rfl]
    rw [show CloneLinkerGraph inputs1 reach eps cs =
        CloneLinkerGraphWith inputs1 reach eps cs
          (dynamicImportCandidates cs inputs1 reach) from rfl]
    rw [cloneWith_ConstValues, cloneWith_ConstValues, hdyn]
    exact mergeCV_relabel pi hinj _ _ reach hcvfiles none none (fun r' => rfl) r

/-- Claim C1 (amended): (i) for fixed inputs, two runs that realize the
shared dynamic-entry collector in different orders (hence under any two
parallel schedules) construct identical graphs; (ii) two runs related by a
file-identity permutation consistent with the reachableFiles ordering
produce the relabeled entry-point list — identical when compared through
stable indices — stable-index mappings that agree through the permutation,
and merged TSEnums/ConstValues tables that agree after relabeling their
keys through the permutation.  (The un-amended claim asserted literally
identical stable-index mappings and merged tables under relabeling.) -/
theorem c1_determinism (pi : Nat → Nat) (inputs1 inputs2 : List InputFile)
    (reach : List Nat) (eps : List EntryPoint) (cs : Bool)
    (hinj : Function.Injective pi)
    (hbnd : ∀ i < inputs1.length, pi i < inputs1.length)
    (hlen2 : inputs2.length = inputs1.length)
    (hinputs : ∀ i < inputs1.length,
      inputs2.getD (pi i) ⟨FileRepr.empty⟩ =
        relabelInputFile pi (inputs1.getD i ⟨FileRepr.empty⟩))
    (hnd : reach.Nodup)
    (hbound : ∀ x ∈ reach, x < inputs1.length)
    (hepb : ∀ ep ∈ eps, ep.SourceIndex < inputs1.length)
    (hclosed : ∀ x ∈ dynamicImportCandidates cs inputs1 reach, x ∈ reach) :
    (∀ dyn1 dyn2 : List Nat, dyn1.Perm dyn2 → (∀ x ∈ dyn1, x < inputs1.length) →
      CloneLinkerGraphWith inputs1 reach eps cs dyn1 =
        CloneLinkerGraphWith inputs1 reach eps cs dyn2) ∧
    (CloneLinkerGraph inputs2 (reach.map pi) (eps.map (relabelEntryPoint pi)) cs).entryPoints
        = (CloneLinkerGraph inputs1 reach eps cs).entryPoints.map (relabelEntryPoint pi) ∧
    (∀ i < inputs1.length,
      (CloneLinkerGraph inputs2 (reach.map pi) (eps.map (relabelEntryPoint pi))
          cs).StableSourceIndices.getD (pi i) 0 =
        (CloneLinkerGraph inputs1 reach eps cs).StableSourceIndices.getD i 0) ∧
    ((CloneLinkerGraph inputs2 (reach.map pi) (eps.map (relabelEntryPoint pi))
        cs).entryPoints.map (fun ep =>
          (CloneLinkerGraph inputs2 (reach.map pi) (eps.map (relabelEntryPoint pi))
            cs).StableSourceIndices.getD ep.SourceIndex 0) =
      (CloneLinkerGraph inputs1 reach eps cs).entryPoints.map (fun ep =>
        (CloneLinkerGraph inputs1 reach eps cs).StableSourceIndices.getD
          ep.SourceIndex 0)) ∧
    (∀ r : Ref,
      optLookup (CloneLinkerGraph inputs2 (reach.map pi) (eps.map (relabelEntryPoint pi))
          cs).TSEnums (relabelRef pi r) =
        optLookup (CloneLinkerGraph inputs1 reach eps cs).TSEnums r) ∧
    (∀ r : Ref,
      optLookup (CloneLinkerGraph inputs2 (reach.map pi) (eps.map (relabelEntryPoint pi))
          cs).ConstValues (relabelRef pi r) =
        optLookup (CloneLinkerGraph inputs1 reach eps cs).ConstValues r) := by
  obtain ⟨h1, h2, h4, h5⟩ := clone_relabel_spec pi inputs1 inputs2 reach eps cs hinj hbnd
    hlen2 hinputs hnd hbound hepb hclosed
  refine ⟨?_, h1, h2, ?_, h4, h5⟩
  · intro dyn1 dyn2 hperm hb
    exact cloneLinkerGraphWith_perm inputs1 reach eps cs hperm hb
  · rw [h1, List.map_map]
    apply List.map_congr_left
    intro ep hep
    simp only [Function.comp_apply, relabelEntryPoint]
    exact h2 ep.SourceIndex
      (mem_entryPoints_src_lt inputs1 reach eps cs hnd hbound hepb hclosed ep hep)

theorem c1_determinism_witness :
    (CloneLinkerGraph cexInputs2 ([0, 1].map cexPi)
        (cexEps1.map (relabelEntryPoint cexPi)) false).entryPoints =
      (CloneLinkerGraph cexInputs1 [0, 1] cexEps1 false).entryPoints.map
        (relabelEntryPoint cexPi) ∧
    ((CloneLinkerGraph cexInputs2 ([0, 1].map cexPi)
        (cexEps1.map (relabelEntryPoint cexPi)) false).entryPoints.map (fun ep =>
          (CloneLinkerGraph cexInputs2 ([0, 1].map cexPi)
            (cexEps1.map (relabelEntryPoint cexPi)) false).StableSourceIndices.getD
              ep.SourceIndex 0) =
      (CloneLinkerGraph cexInputs1 [0, 1] cexEps1 false).entryPoints.map (fun ep =>
        (CloneLinkerGraph cexInputs1 [0, 1] cexEps1 false).StableSourceIndices.getD
          ep.SourceIndex 0)) ∧
    CloneLinkerGraphWith cexInputs1 [0, 1] cexEps1 false [1, 0] =
      CloneLinkerGraphWith cexInputs1 [0, 1] cexEps1 false [0, 1] := by
  have hc := c1_determinism cexPi cexInputs1 cexInputs2 [0, 1] cexEps1 false
    (by intro a b h; simp only [cexPi] at h; split_ifs at h <;> omega)
    (by decide) (by decide) (by decide) (by decide) (by decide) (by decide) (by decide)
  exact ⟨hc.2.1, hc.2.2.2.1, hc.1 [1, 0] [0, 1] (by decide) (by decide)⟩

/-- The frozen claim C1 is false as stated in its relabeling part: the two
runs below are related by the permutation `cexPi` (swapping files 0 and 1)
consistently with the reachable-file ordering, yet their StableSourceIndices
arrays differ ([1,0] versus [0,1]) and their merged TSEnums tables differ
(the enum key's file identity is relabeled), so the outputs are identical
only through the permutation, not literally. -/
theorem c1_determinism_counterexample :
    (CloneLinkerGraph cexInputs2 ([0, 1].map cexPi)
        (cexEps1.map (relabelEntryPoint cexPi)) false).StableSourceIndices ≠
      (CloneLinkerGraph cexInputs1 [0, 1] cexEps1 false).StableSourceIndices ∧
    (CloneLinkerGraph cexInputs2 ([0, 1].map cexPi)
        (cexEps1.map (relabelEntryPoint cexPi)) false).TSEnums ≠
      (CloneLinkerGraph cexInputs1 [0, 1] cexEps1 false).TSEnums := by
  decide

end Graph
